import Mathlib

/-!
# Verification development for `extend_cam_ctrl.cpp`

A shallow embedding of the capture pipeline of the camera tool
(`src/extend_cam_ctrl.cpp`): the shared control flags, the buffer allocation,
the capture cycle `get_a_frame`, the decoder `decode_a_frame` and the colour
stages, followed by the theorems settled about them.

Conventions of the embedding.

* An `unsigned char` is a `Fin 256`; an `int` flag is an `Int`; a count or an
  index is a `Nat`.
* Calls into the video driver, the C library and OpenCV are answers of an
  explicit environment (a structure of functions) passed to the model.
* A finite `float` or `double` value is the rational it denotes.  In the cut
  search of the brightness stage and in the gamma table every operation is the
  exact result rounded to binary32 or binary64 (`to_float`, `to_double`); the
  library call `pow` is a function of the environment.  In the white balance
  and in `alpha`, `beta`, `convertTo` the values are kept exact.
-/

namespace CameraTool

/-! ## Machine values -/

/-- An 8-bit unsigned sample (`unsigned char`, `uchar`). -/
abbrev UChar := Fin 256

/-- Conversion of an integer to `unsigned char`: the low eight bits. -/
def to_uchar (n : Nat) : UChar := ⟨n % 256, Nat.mod_lt _ (by decide)⟩

/-- The saturating conversion `cv::saturate_cast<uchar>` of an integer. -/
def saturate_uchar (v : Int) : UChar :=
  if h0 : v < 0 then ⟨0, by decide⟩
  else if h1 : 255 < v then ⟨255, by decide⟩
  else ⟨v.toNat, by omega⟩

/-- The value `cvRound (n / d)` for a positive denominator `d`: the nearest integer, a tie
going to the even neighbour (the rounding of `lrint` and of the SSE conversion). -/
def cvRound_div (n : Int) (d : Int) : Int :=
  let q := n / d
  let r := n % d
  if 2 * r < d then q
  else if d < 2 * r then q + 1
  else if q % 2 = 0 then q else q + 1

/-- The value `cvRound` of an exact rational. -/
def cvRound (x : ℚ) : Int := cvRound_div x.num x.den

/-- Rounding of a positive value to a binary floating-point format with a `p`-bit
significand and smallest normal exponent `emin`: the nearest representable value, a tie
going to the even significand.  The exponent is not bounded above (no overflow to
infinity); below the normal range the spacing stays that of the smallest binade. -/
def round_magnitude (p : Nat) (emin : Int) (x : ℚ) : ℚ :=
  let e : Int := max (Int.log 2 x) emin
  let ulp : ℚ := (2 : ℚ) ^ (e - (p : Int) + 1)
  (cvRound (x / ulp) : ℚ) * ulp

/-- Rounding of a rational to the binary floating-point format `(p, emin)`, symmetric in
the sign. -/
def round_binary (p : Nat) (emin : Int) (x : ℚ) : ℚ :=
  if x = 0 then 0
  else if x < 0 then -round_magnitude p emin (-x)
  else round_magnitude p emin x

/-- The result of an operation in `float` (IEEE-754 binary32): the exact result rounded. -/
def to_float (x : ℚ) : ℚ := round_binary 24 (-126) x

/-- The result of an operation in `double` (IEEE-754 binary64): the exact result rounded. -/
def to_double (x : ℚ) : ℚ := round_binary 53 (-1022) x

/-- The value of the `float` stored with the bit pattern `bits` (sign bit, eight exponent
bits, twenty-three fraction bits), for a finite pattern; the patterns with exponent field
255, the infinities and NaN, have no rational value and are not meant. -/
def float_of_bits (bits : Nat) : ℚ :=
  let sign := bits / 2147483648 % 2
  let ex := bits / 8388608 % 256
  let man := bits % 8388608
  let mag : ℚ :=
    if ex = 0 then (man : ℚ) * (2 : ℚ) ^ (-149 : Int)
    else ((8388608 + man : Nat) : ℚ) * (2 : ℚ) ^ ((ex : Int) - 150)
  if sign = 1 then -mag else mag

/-! ## Shared control state (lines 51-59) -/

/-- The process-shared control words `save_bmp` .. `gamma_val`.  `gamma_val` is kept as the
raw 32-bit pattern of the stored `float`; its value is `float_of_bits gamma_val`. -/
structure ControlFlags where
  save_bmp : Int
  save_raw : Int
  bayer_flag : Int
  shift_flag : Int
  awb_flag : Int
  abc_flag : Int
  gamma_val : Nat
deriving DecidableEq

/-- The function `set_save_bmp_flag` (line 80). -/
def set_save_bmp_flag (fl : ControlFlags) (flag : Int) : ControlFlags :=
  { fl with save_bmp := flag }

/-- The function `set_save_raw_flag` (line 118). -/
def set_save_raw_flag (fl : ControlFlags) (flag : Int) : ControlFlags :=
  { fl with save_raw := flag }

/-- The function `set_shift` (line 171): the shift amount for the chosen sensor datatype. -/
def set_shift (shift_flag : Int) : Nat :=
  if shift_flag = 1 then 2
  else if shift_flag = 2 then 4
  else if shift_flag = 3 then 0
  else 2

/-- The function `add_bayer_forcv` (line 233): the increment added to `CV_BayerBG2BGR`. -/
def add_bayer_forcv (bayer_flag : Int) : Int :=
  if bayer_flag = 1 then 0
  else if bayer_flag = 2 then 1
  else if bayer_flag = 3 then 2
  else if bayer_flag = 4 then 3
  else 2

/-- The OpenCV conversion code `CV_BayerBG2BGR`, 46 as recorded in the comment of
`add_bayer_forcv` (lines 223-226: BG 46, GB 47, RG 48, GR 49). -/
def CV_BayerBG2BGR : Int := 46

/-- The conversion code `decode_a_frame` passes to `cvtColor` (line 871). -/
def bayer_conversion_code (bayer_flag : Int) : Int :=
  CV_BayerBG2BGR + add_bayer_forcv bayer_flag

/-! ## Bit-depth unshifting (lines 854-868) -/

/-- One pass of the inner loop body of `decode_a_frame` (lines 858-866): the byte stored
for the 16-bit sample `ts`.  `ts - 64` is computed in `int`, shifted right, and the
assignment to the `unsigned char tmp` keeps the low eight bits. -/
def unshift_sample (ts : Nat) (shift : Nat) : UChar :=
  if ts > 64 then to_uchar ((ts - 64) >>> shift) else to_uchar 0

/-- The double loop of lines 854-868 over a `height` x `width` frame: the first
`height * width` 16-bit samples of the buffer are read in order and one byte is stored for
each.  The bytes are written into the same buffer, byte `k` after sample `k` (bytes `2k`,
`2k+1`) has been read, so every sample is read before any write reaches it. -/
def unshift_frame (height width shift : Nat) (src : List Nat) : List UChar :=
  (src.take (height * width)).map (fun ts => unshift_sample ts shift)

/-! ## Images -/

/-- One pixel of a `CV_8UC3` image, channels in OpenCV order blue, green, red. -/
structure Pixel where
  b : UChar
  g : UChar
  r : UChar
deriving DecidableEq

/-- A `CV_8UC3` matrix, flattened row by row. -/
abbrev Image := List Pixel

/-- A single-channel `CV_8U` matrix, flattened row by row. -/
abbrev Plane := List UChar

/-- The call `split`: the three channel planes, blue first. -/
def split (img : Image) : Plane × Plane × Plane :=
  (img.map Pixel.b, img.map Pixel.g, img.map Pixel.r)

/-- The call `merge` of three planes, blue first. -/
def merge (ch0 ch1 ch2 : Plane) : Image :=
  List.zipWith3 Pixel.mk ch0 ch1 ch2

/-- The call `mean` on one plane (zero for an empty one). -/
def mean (ch : Plane) : ℚ :=
  if ch.length = 0 then 0 else ((ch.map (fun v => (v.val : ℚ))).sum) / ch.length

/-! ## White balance (lines 282-364) -/

/-- Coefficient `rr` of line 288. -/
def rr : Int := 409
/-- Coefficient `rg` of line 288. -/
def rg : Int := -137
/-- Coefficient `rb` of line 288. -/
def rb : Int := -15
/-- Coefficient `gr` of line 289. -/
def gr : Int := -136
/-- Coefficient `gg` of line 289. -/
def gg : Int := 468
/-- Coefficient `gb` of line 289. -/
def gb : Int := -77
/-- Coefficient `br` of line 290. -/
def br : Int := 4
/-- Coefficient `bg` of line 290. -/
def bg : Int := -303
/-- Coefficient `bb` of line 290. -/
def bb : Int := 554

/-- Numerator of the gain `KB = 267.0/256` (line 326). -/
def KB : Int := 267
/-- Numerator of the gain `KG = 403.0/256` (line 327). -/
def KG : Int := 403
/-- Numerator of the gain `KR = 471.0/256` (line 328). -/
def KR : Int := 471

/-- Assignment of the matrix expression `m * (k/256)` to an 8-bit plane: OpenCV evaluates it
with `convertTo`, every element becoming `saturate_cast<uchar>(v * k/256)`.  The product is
exact in `float`, so the value rounded is the rational `v * k / 256`. -/
def mat_scale (m : Plane) (k : Int) : Plane :=
  m.map (fun v => saturate_uchar (cvRound_div ((v.val : Int) * k) 256))

/-- The 8-bit weighted sum `addWeighted (m1, a/256, m2, b/256, 0)`: every element is
`saturate_cast<uchar>(x * a/256 + y * b/256)`, exact before the rounding. -/
def mat_addWeighted (m1 : Plane) (a : Int) (m2 : Plane) (b : Int) : Plane :=
  List.zipWith
    (fun x y => saturate_uchar (cvRound_div ((x.val : Int) * a + (y.val : Int) * b) 256)) m1 m2

/-- Assignment of `x * a/256 + y * b/256 + z * c/256` to an 8-bit plane.  The expression
parses as `(x*a/256 + y*b/256) + z*c/256`; OpenCV folds the first two scaled terms into one
weighted sum, stores that sum as an 8-bit plane, and adds the third scaled term to the
stored plane in a second weighted sum (weight one for the stored plane). -/
def mat_combine (x : Plane) (a : Int) (y : Plane) (b : Int) (z : Plane) (c : Int) : Plane :=
  mat_addWeighted (mat_addWeighted x a y b) 256 z c

/-- The function `apply_white_balance` (line 309).  The channel means are computed and
stored in `RGB_ORIG`, which nothing reads afterwards; the planes are scaled by the fixed
gains and then overwritten one after the other, plane 2 (red) first. -/
def apply_white_balance (opencvImage : Image) : Image :=
  let (c0, c1, c2) := split opencvImage
  let B := mean c0
  let G := mean c1
  let R := mean c2
  let _RGB_ORIG := [B, G, R]
  let c0 := mat_scale c0 KB
  let c1 := mat_scale c1 KG
  let c2 := mat_scale c2 KR
  let c2 := mat_combine c2 rr c1 rg c0 rb
  let c1 := mat_combine c2 gr c1 gg c0 gb
  let c0 := mat_combine c2 br c1 bg c0 bb
  merge c0 c1 c2

/-- Definition following the words of the specification, for comparison with
`apply_white_balance`: the gains are applied, then every row of the matrix is applied to
the same gain-adjusted planes. -/
def white_balance_spec (img : Image) : Image :=
  let (c0, c1, c2) := split img
  let b' := mat_scale c0 KB
  let g' := mat_scale c1 KG
  let r' := mat_scale c2 KR
  merge (mat_combine r' br g' bg b' bb) (mat_combine r' gr g' gg b' gb)
    (mat_combine r' rr g' rg b' rb)

/-! ## Automatic brightness and contrast (lines 376-439) -/

/-- The constant `hist_size` (line 379). -/
def hist_size : Nat := 256

/-- The call `calcHist` with 256 uniform bins over `[0, 256)`: bin `i` counts the samples
equal to `i`. -/
def calcHist (gray : Plane) (i : Nat) : Nat :=
  gray.countP (fun v => v.val = i)

/-- The entry `hist.at<float>(i)`: `calcHist` counts a bin in integers and stores the count
converted to `float`. -/
def hist_at (hist : Nat → Nat) (i : Nat) : ℚ :=
  to_float (hist i : ℚ)

/-- The cumulative distribution of lines 404-409, a vector of `float`:
`accumulator[0] = hist[0]` and `accumulator[i] = accumulator[i-1] + hist[i]`, every sum
rounded to `float`. -/
def accumulator (hist : Nat → Nat) : Nat → ℚ
  | 0 => hist_at hist 0
  | i + 1 => to_float (accumulator hist i + hist_at hist (i + 1))

/-- The absolute clip value of lines 413-414.  `clipHistPercent *= (max / 100.0)` divides
and multiplies in `double` and stores the product in the `float`; `clipHistPercent /= 2.0`
divides in `double` and stores the quotient in the `float`. -/
def clip_absolute (clipHistPercent max : ℚ) : ℚ :=
  let percent := to_float (to_double (clipHistPercent * to_double (max / 100)))
  to_float (to_double (percent / 2))

/-- The left-cut loop of lines 416-418, started as `locate_left_cut acc clip hist_size 0`.
The first counter is the number of entries of `accumulator` from `min_gray` on; when it is
zero the loop reads `accumulator[256]`, outside the vector, and the result is `none`. -/
def locate_left_cut (acc : Nat → ℚ) (clip : ℚ) : Nat → Nat → Option Nat
  | 0, _ => none
  | k + 1, min_gray =>
    if acc min_gray < clip then locate_left_cut acc clip k (min_gray + 1) else some min_gray

/-- The right-cut loop of lines 421-423, started as `locate_right_cut acc max clip hist_size`.
The counter is `max_gray + 1`; when it is zero the loop reads `accumulator[-1]`, outside the
vector, and the result is `none`.  The difference `max - clipHistPercent` of two `float`
values is a `float`. -/
def locate_right_cut (acc : Nat → ℚ) (max clip : ℚ) : Nat → Option Nat
  | 0 => none
  | max_gray + 1 =>
    if acc max_gray ≥ to_float (max - clip) then locate_right_cut acc max clip max_gray
    else some max_gray

/-- The `else` branch of lines 392-424: the pair `(min_gray, max_gray)` found for a
histogram and a non-zero clip percentage, `none` when a loop leaves the vector. -/
def cut_search (hist : Nat → Nat) (clipHistPercent : ℚ) : Option (Nat × Nat) :=
  let acc := accumulator hist
  let max := acc (hist_size - 1)
  let clip := clip_absolute clipHistPercent max
  match locate_left_cut acc clip hist_size 0 with
  | none => none
  | some min_gray =>
    match locate_right_cut acc max clip hist_size with
    | none => none
    | some max_gray => some (min_gray, max_gray)

/-- The call `minMaxLoc` (line 390): the smallest and the largest sample of a plane; it
raises an error on an empty one. -/
def minMaxLoc (gray : Plane) : Option (Nat × Nat) :=
  match gray with
  | [] => none
  | v :: vs => some ((vs.foldl min v).val, (vs.foldl max v).val)

/-- Lines 387-424: the grey range chosen for a grey plane and a clip percentage. -/
def gray_range (gray : Plane) (clipHistPercent : ℚ) : Option (Nat × Nat) :=
  if clipHistPercent = 0 then minMaxLoc gray
  else cut_search (calcHist gray) clipHistPercent

/-- Lines 427-430: `input_range`, `alpha` and `beta`; `none` when `input_range` is zero,
where the division is not a finite number. -/
def alpha_beta (min_gray max_gray : Nat) : Option (ℚ × ℚ) :=
  let input_range : ℚ := (max_gray : ℚ) - (min_gray : ℚ)
  if input_range = 0 then none
  else
    let alpha : ℚ := ((hist_size : ℚ) - 1) / input_range
    let beta : ℚ := -(min_gray : ℚ) * alpha
    some (alpha, beta)

/-- The call `convertTo (img, -1, alpha, beta)` on an 8-bit image: every channel value `v`
becomes `saturate_cast<uchar>(alpha * v + beta)`. -/
def convertTo (img : Image) (alpha beta : ℚ) : Image :=
  img.map (fun px =>
    { b := saturate_uchar (cvRound (alpha * (px.b.val : ℚ) + beta))
      g := saturate_uchar (cvRound (alpha * (px.g.val : ℚ) + beta))
      r := saturate_uchar (cvRound (alpha * (px.r.val : ℚ) + beta)) })

/-- The function `apply_auto_brightness_and_contrast` (line 376).  The grey conversion
`cvtColor (.., CV_BGR2GRAY)` is the parameter `bgr2gray`.  The result is `none` where the
C++ has no defined result: a cut loop leaving the vector, an empty image, a zero range. -/
def apply_auto_brightness_and_contrast (bgr2gray : Pixel → UChar) (opencvImage : Image)
    (clipHistPercent : ℚ) : Option Image :=
  let gray : Plane := opencvImage.map bgr2gray
  match gray_range gray clipHistPercent with
  | none => none
  | some (min_gray, max_gray) =>
    match alpha_beta min_gray max_gray with
    | none => none
    | some (alpha, beta) => some (convertTo opencvImage alpha beta)

/-! ## The device and the buffer allocation (lines 666-741) -/

/-- The fields of `struct device` the modelled functions use.  `buffers` is the array held
in `dev->buffers`, given by its number of entries (`none`: no array assigned). -/
structure Device where
  width : Nat
  height : Nat
  imagesize : Nat
  nbufs : Nat
  buffers : Option Nat
deriving DecidableEq

/-- The answers of the driver and of the C library during one run of
`video_alloc_buffers`: return values of the `ioctl` calls, the count the driver leaves in
`bufrequest.count`, whether `malloc` succeeds, and for every index the length and offset
reported by `VIDIOC_QUERYBUF` and the address returned by `mmap` (`none` is `MAP_FAILED`). -/
structure AllocEnv where
  reqbufs_ret : Int
  reqbufs_count : Nat
  malloc_ok : Bool
  querybuf_ret : Nat → Int
  querybuf_length : Nat → Nat
  querybuf_offset : Nat → Nat
  mmap_result : Nat → Option Nat
  qbuf_ret : Nat → Int

/-- What `video_alloc_buffers` does to the driver and to the buffer array, in order. -/
inductive AllocEvent where
  | request (count : Nat)
  | malloc (entries : Nat)
  | query (i : Nat)
  | write_length (i : Nat) (length : Nat)
  | map (i : Nat) (length offset : Nat)
  | write_start (i : Nat) (start : Option Nat)
  | queue (i : Nat)
deriving DecidableEq

/-- The error number `ENOMEM` of `errno.h`. -/
def ENOMEM : Int := 12

/-- The mapping loop of lines 694-738 from index `i` on, the first counter being the
number of indices left below `dev->nbufs`.  The result is `some ret` when a `return ret`
inside the loop is taken and `none` when the loop runs to its end. -/
def map_buffers (env : AllocEnv) : Nat → Nat → List AllocEvent → Option Int × List AllocEvent
  | 0, _, ev => (none, ev)
  | k + 1, i, ev =>
    let ret := env.querybuf_ret i
    let ev := ev ++ [AllocEvent.query i]
    if ret < 0 then (some ret, ev)
    else
      let ev := ev ++ [AllocEvent.write_length i (env.querybuf_length i)]
      let ev := ev ++ [AllocEvent.map i (env.querybuf_length i) (env.querybuf_offset i),
        AllocEvent.write_start i (env.mmap_result i)]
      match env.mmap_result i with
      | none => (some ret, ev)
      | some _ =>
        let ret := env.qbuf_ret i
        let ev := ev ++ [AllocEvent.queue i]
        if ret < 0 then (some ret, ev)
        else map_buffers env k (i + 1) ev

/-- The function `video_alloc_buffers` (line 666): the returned value, the device
afterwards and the sequence of actions taken.  The `int nbufs` is stored in the unsigned
32-bit fields `bufrequest.count` and `dev->nbufs`. -/
def video_alloc_buffers (env : AllocEnv) (dev : Device) (nbufs : Int) :
    Int × Device × List AllocEvent :=
  let count : Nat := (nbufs % 4294967296).toNat
  let dev := { dev with nbufs := count }
  let ev := [AllocEvent.request count]
  let ret := env.reqbufs_ret
  if ret < 0 then (ret, dev, ev)
  else
    let ev := ev ++ [AllocEvent.malloc env.reqbufs_count]
    if env.malloc_ok = false then (-ENOMEM, dev, ev)
    else
      match map_buffers env dev.nbufs 0 ev with
      | (some ret, ev) => (ret, dev, ev)
      | (none, ev) => (0, { dev with buffers := some env.reqbufs_count }, ev)

/-! ## The capture state -/

/-- How far the process has got: still running, ended by `exit(0)`, or at a point where
the C++ has no defined behaviour. -/
inductive Status where
  | running
  | exited
  | undefined
deriving DecidableEq

/-- A file the process asked to be written: a raw dump made by `get_a_frame` at loop index
`i`, with the value returned by `v4l2_core_save_data_to_file`, or a bitmap made by
`save_frame_image_bmp`. -/
inductive FileWrite where
  | raw (name : List Char) (i : Nat) (ret : Int)
  | bmp (name : List Char)
deriving DecidableEq

/-- Whether a logged write is a raw dump. -/
def FileWrite.isRaw : FileWrite → Bool
  | FileWrite.raw _ _ _ => true
  | FileWrite.bmp _ => false

/-- The state the capture loop works on: the shared flags, the static `image_count`, the
files written so far, the images handed to `imshow`, and the status of the process. -/
structure World where
  flags : ControlFlags
  image_count : Int
  files : List FileWrite
  shown : List Image
  status : Status
deriving DecidableEq

/-- The raw dumps among the files written so far. -/
def World.raw_writes (w : World) : List FileWrite :=
  w.files.filter FileWrite.isRaw

/-- The characters `%d` prints for an `int`. -/
def print_int (n : Int) : List Char :=
  if n < 0 then '-' :: Nat.toDigits 10 n.natAbs else Nat.toDigits 10 n.toNat

/-- The name built at lines 808-809: `snprintf` into `char buf_name[16]` keeps at most
fifteen characters of `captures_%d.raw`. -/
def raw_file_name (image_count : Int) : List Char :=
  ("captures_".toList ++ print_int image_count ++ ".raw".toList).take 15

/-- The name built at lines 97-98 by `cv::format ("captures_%d.bmp", image_count)`. -/
def bmp_file_name (image_count : Int) : List Char :=
  "captures_".toList ++ print_int image_count ++ ".bmp".toList

/-- The function `v4l2_core_save_data_to_file` (line 135): the error code returned, given
whether `fopen` succeeded and whether `fwrite` wrote the block. -/
def v4l2_core_save_data_to_file (fopen_ok fwrite_ok : Bool) : Int :=
  if fopen_ok then (if fwrite_ok then 0 else 1) else 1

/-! ## Decoding (lines 838-927) -/

/-- The library functions the decoder calls, all outside this repository: the bayer
interpolation of OpenCV for a conversion code, its YUY2 conversion, the function `pow` of
the C library on `double` values (first argument the base, second the exponent), and the
grey value OpenCV gives a pixel. -/
structure OpenCV where
  cvtColor_bayer : Int → Nat → Nat → Plane → Image
  cvtColor_yuy2 : Nat → Nat → List Nat → Image
  pow : ℚ → ℚ → ℚ
  bgr2gray : Pixel → UChar

/-- Entry `i` of the table built at lines 275-278:
`p[i] = cv::saturate_cast<uchar>(pow(i / 255.0, *gamma_val) * 255.0)`, the division and the
product in `double`, the cast rounding with `cvRound`. -/
def look_up_table (cv : OpenCV) (gamma_val : Nat) (i : Nat) : UChar :=
  saturate_uchar
    (cvRound (to_double (cv.pow (to_double ((i : ℚ) / 255)) (float_of_bits gamma_val) * 255)))

/-- The function `apply_gamma_correction` (line 271): the 256-entry table is built from
`gamma_val` and applied to every channel by `LUT`. -/
def apply_gamma_correction (cv : OpenCV) (gamma_val : Nat) (opencvImage : Image) : Image :=
  let p : Nat → UChar := fun i => look_up_table cv gamma_val i
  opencvImage.map (fun px => { b := p px.b.val, g := p px.g.val, r := p px.r.val })

/-- Lines 886-892 and 910-916: the bitmap is written when `save_bmp` is set, the counter
advances and the flag is reset. -/
def save_bmp_if_requested (w : World) : World :=
  if w.flags.save_bmp ≠ 0 then
    { w with
      files := w.files ++ [FileWrite.bmp (bmp_file_name w.image_count)]
      image_count := w.image_count + 1
      flags := set_save_bmp_flag w.flags 0 }
  else w

/-- Lines 899/919 and 922-926: the image is shown, the key is polled, and the process
exits when the key is the escape key. -/
def show_and_poll (img : Image) (esc_pressed : Bool) (w : World) : World :=
  let w := { w with shown := w.shown ++ [img] }
  if esc_pressed then { w with status := Status.exited } else w

/-- The function `decode_a_frame` (line 838) on the 16-bit words `p` of the buffer, with
`esc_pressed` telling whether `waitKey (_1MS)` returns `_ESC_KEY`. -/
def decode_a_frame (cv : OpenCV) (dev : Device) (p : List Nat) (shift : Nat)
    (esc_pressed : Bool) (w : World) : World :=
  if shift ≠ 0 then
    let plane := unshift_frame dev.height dev.width shift p
    let img := cv.cvtColor_bayer (bayer_conversion_code w.flags.bayer_flag)
      dev.height dev.width plane
    let img := apply_gamma_correction cv w.flags.gamma_val img
    let img := if w.flags.awb_flag = 1 then apply_white_balance img else img
    let abc := if w.flags.abc_flag = 1
      then apply_auto_brightness_and_contrast cv.bgr2gray img 1 else some img
    match abc with
    | none => { w with status := Status.undefined }
    | some img => show_and_poll img esc_pressed (save_bmp_if_requested w)
  else
    let img := cv.cvtColor_yuy2 dev.height dev.width p
    show_and_poll img esc_pressed (save_bmp_if_requested w)

/-! ## The capture cycle (lines 790-825) -/

/-- The answers of the surroundings during one run of `get_a_frame`, by loop index: the
return values of `VIDIOC_DQBUF` and `VIDIOC_QBUF`, the words found in buffer 0, whether
`fopen` and `fwrite` succeed, and whether the escape key is read. -/
structure CycleEnv where
  dqbuf_ret : Nat → Int
  qbuf_ret : Nat → Int
  frame : Nat → List Nat
  fopen_ok : Nat → Bool
  fwrite_ok : Nat → Bool
  esc_pressed : Nat → Bool

/-- Lines 805-814: the raw dump made when `save_raw` is set. -/
def save_raw_if_requested (env : CycleEnv) (i : Nat) (w : World) : World :=
  if w.flags.save_raw ≠ 0 then
    { w with
      files := w.files ++ [FileWrite.raw (raw_file_name w.image_count) i
        (v4l2_core_save_data_to_file (env.fopen_ok i) (env.fwrite_ok i))]
      image_count := w.image_count + 1
      flags := set_save_raw_flag w.flags 0 }
  else w

/-- The loop of `get_a_frame` from index `i` on, the first counter being the number of
indices left below `dev->nbufs`. -/
def get_a_frame_loop (cv : OpenCV) (env : CycleEnv) (dev : Device) :
    Nat → Nat → World → World
  | 0, _, w => w
  | k + 1, i, w =>
    if env.dqbuf_ret i < 0 then w
    else
      let w := save_raw_if_requested env i w
      let w := decode_a_frame cv dev (env.frame i) (set_shift w.flags.shift_flag)
        (env.esc_pressed i) w
      if w.status ≠ Status.running then w
      else if env.qbuf_ret i < 0 then w
      else get_a_frame_loop cv env dev k (i + 1) w

/-- The function `get_a_frame` (line 790). -/
def get_a_frame (cv : OpenCV) (env : CycleEnv) (dev : Device) (w : World) : World :=
  get_a_frame_loop cv env dev dev.nbufs 0 w

/-! ## Definitions used to state the results -/

/-- Definition following the words of the specification, for comparison with
`unshift_sample`: zero up to the black level 64, otherwise `(v - 64) >> shift` clamped to
the 8-bit range. -/
def unshift_clamped_spec (v shift : Nat) : Nat :=
  if v ≤ 64 then 0 else min ((v - 64) >>> shift) 255

/-- The 8-bit value `saturate_cast<uchar>(n / 256)`. -/
def round256 (n : Int) : UChar := saturate_uchar (cvRound_div n 256)

/-- What `apply_white_balance` computes for one pixel, written out channel by channel:
the gains, the red row, then the green row reading the new red value, then the blue row
reading the new red and green values. -/
def white_balance_pixel (px : Pixel) : Pixel :=
  let b1 := round256 ((px.b.val : Int) * KB)
  let g1 := round256 ((px.g.val : Int) * KG)
  let r1 := round256 ((px.r.val : Int) * KR)
  let r2 := round256 ((round256 ((r1.val : Int) * rr + (g1.val : Int) * rg)).val * 256
    + (b1.val : Int) * rb)
  let g2 := round256 ((round256 ((r2.val : Int) * gr + (g1.val : Int) * gg)).val * 256
    + (b1.val : Int) * gb)
  let b2 := round256 ((round256 ((r2.val : Int) * br + (g2.val : Int) * bg)).val * 256
    + (b1.val : Int) * bb)
  { b := b2, g := g2, r := r2 }

/-- The histogram mass of the grey levels strictly below `m`. -/
def mass_below (hist : Nat → Nat) (m : Nat) : Nat :=
  Finset.sum (Finset.range m) hist

/-- The histogram mass of the grey levels strictly above `M`, up to level 255. -/
def mass_above (hist : Nat → Nat) (M : Nat) : Nat :=
  Finset.sum (Finset.Ico (M + 1) hist_size) hist

/-- The total mass of a 256-bin histogram. -/
def total_mass (hist : Nat → Nat) : Nat :=
  Finset.sum (Finset.range hist_size) hist

/-- The histogram of a 200-pixel grey image, 100 pixels at level 0 and 100 at level 255. -/
def two_peak_hist : Nat → Nat :=
  fun i => if i = 0 then 100 else if i = 255 then 100 else 0

/-- The histogram of a 240199-pixel grey image: 200000 pixels at level 0, 38998 at level
254 and 1201 at level 255. -/
def three_level_hist : Nat → Nat :=
  fun i => if i = 0 then 200000 else if i = 254 then 38998 else if i = 255 then 1201 else 0

/-- Definition following the words of the specification, for comparison with
`raw_file_name`: `captures_`, the decimal digits of the sequence number, `.raw`, with
nothing cut off. -/
def raw_file_name_spec (image_count : Int) : List Char :=
  "captures_".toList ++ print_int image_count ++ ".raw".toList

/-- The indices at which the left-cut loop reads `accumulator`, in order, for the same
arguments as `locate_left_cut`; the last one is 256 when the loop leaves the vector. -/
def locate_left_cut_reads (acc : Nat → ℚ) (clip : ℚ) : Nat → Nat → List Int
  | 0, min_gray => [(min_gray : Int)]
  | k + 1, min_gray =>
    (min_gray : Int) ::
      (if acc min_gray < clip then locate_left_cut_reads acc clip k (min_gray + 1) else [])

/-- The indices at which the right-cut loop reads `accumulator`, in order, for the same
arguments as `locate_right_cut`; the last one is -1 when the loop leaves the vector. -/
def locate_right_cut_reads (acc : Nat → ℚ) (max clip : ℚ) : Nat → List Int
  | 0 => [-1]
  | max_gray + 1 =>
    (max_gray : Int) ::
      (if acc max_gray ≥ to_float (max - clip) then locate_right_cut_reads acc max clip max_gray
        else [])

/-- The histogram of an image of `n` pixels that all have the grey level `g`. -/
def uniform_hist (g n : Nat) : Nat → Nat :=
  fun i => if i = g then n else 0

/-- The index of the buffer entry an action of `video_alloc_buffers` writes, if it writes
one (`buffers[i].length` or `buffers[i].start`). -/
def AllocEvent.write_index : AllocEvent → Option Nat
  | AllocEvent.write_length i _ => some i
  | AllocEvent.write_start i _ => some i
  | _ => none

/-! # Results -/

/-! ## Shared lemmas -/

theorem to_uchar_val (n : Nat) : (to_uchar n).val = n % 256 := rfl

theorem apply_white_balance_cons (px : Pixel) (img : Image) :
    apply_white_balance (px :: img) = white_balance_pixel px :: apply_white_balance img := by
  simp [apply_white_balance, split, merge, mat_scale, mat_combine, mat_addWeighted,
    white_balance_pixel, round256, List.zipWith3]

theorem apply_white_balance_eq_map (img : Image) :
    apply_white_balance img = img.map white_balance_pixel := by
  induction img with
  | nil => rfl
  | cons px img ih => rw [apply_white_balance_cons, ih]; rfl

theorem white_balance_first_pass :
    apply_white_balance [{ b := 0, g := 100, r := 100 }] = [{ b := 0, g := 175, r := 210 }] := by
  decide

theorem white_balance_second_pass :
    apply_white_balance [{ b := 0, g := 175, r := 210 }] = [{ b := 0, g := 255, r := 255 }] := by
  decide

/-! ## Rounding -/

theorem cvRound_div_err (n d : Int) (hd : 0 < d) :
    |((cvRound_div n d : Int) : ℚ) - (n : ℚ) / (d : ℚ)| ≤ 1 / 2 := by
  have hdq : (0 : ℚ) < (d : ℚ) := by exact_mod_cast hd
  have hsplit : (n : ℚ) / (d : ℚ) = ((n / d : Int) : ℚ) + ((n % d : Int) : ℚ) / (d : ℚ) := by
    have h := Int.ediv_add_emod n d
    have h' : (n : ℚ) = (d : ℚ) * ((n / d : Int) : ℚ) + ((n % d : Int) : ℚ) := by
      exact_mod_cast h.symm
    field_simp
    linarith
  have hr0 : 0 ≤ n % d := Int.emod_nonneg n (ne_of_gt hd)
  have hr1 : n % d < d := Int.emod_lt_of_pos n hd
  have hr0q : (0 : ℚ) ≤ ((n % d : Int) : ℚ) := by exact_mod_cast hr0
  have hr1q : ((n % d : Int) : ℚ) < (d : ℚ) := by exact_mod_cast hr1
  have key : ∀ c : ℚ, (c = 0 ∨ c = 1) →
      (c = 0 → 2 * ((n % d : Int) : ℚ) ≤ (d : ℚ)) →
      (c = 1 → (d : ℚ) ≤ 2 * ((n % d : Int) : ℚ)) →
      |((n / d : Int) : ℚ) + c - (n : ℚ) / (d : ℚ)| ≤ 1 / 2 := by
    intro c hc h0 h1
    rw [hsplit, abs_le]
    rcases hc with hc | hc
    · subst hc
      have := h0 rfl
      constructor
      · rw [show ((n / d : Int) : ℚ) + 0 - (((n / d : Int) : ℚ) + ((n % d : Int) : ℚ) / (d : ℚ))
          = -(((n % d : Int) : ℚ) / (d : ℚ)) by ring]
        rw [neg_le_neg_iff, div_le_iff₀ hdq]
        linarith
      · rw [show ((n / d : Int) : ℚ) + 0 - (((n / d : Int) : ℚ) + ((n % d : Int) : ℚ) / (d : ℚ))
          = -(((n % d : Int) : ℚ) / (d : ℚ)) by ring]
        have : 0 ≤ ((n % d : Int) : ℚ) / (d : ℚ) := div_nonneg hr0q hdq.le
        linarith
    · subst hc
      have := h1 rfl
      have hle : ((n % d : Int) : ℚ) / (d : ℚ) ≤ 1 := by
        rw [div_le_iff₀ hdq]; linarith
      have hge : 1 / 2 ≤ ((n % d : Int) : ℚ) / (d : ℚ) := by
        rw [le_div_iff₀ hdq]; linarith
      constructor <;> linarith
  unfold cvRound_div
  dsimp only
  split_ifs with h1 h2 h3
  · have := key 0 (Or.inl rfl) (fun _ => by
      have : (2 * (n % d) : Int) < d := h1
      have : ((2 * (n % d) : Int) : ℚ) < (d : ℚ) := by exact_mod_cast this
      push_cast at this; linarith) (fun h => by norm_num at h)
    simpa using this
  · have := key 1 (Or.inr rfl) (fun h => by norm_num at h) (fun _ => by
      have : ((d : Int) : ℚ) < ((2 * (n % d) : Int) : ℚ) := by exact_mod_cast h2
      push_cast at this; linarith)
    simpa using this
  · have heq : 2 * (n % d) = d := by omega
    have heq' : 2 * ((n % d : Int) : ℚ) = (d : ℚ) := by exact_mod_cast heq
    have := key 0 (Or.inl rfl) (fun _ => heq'.le) (fun h => by norm_num at h)
    simpa using this
  · have heq : 2 * (n % d) = d := by omega
    have heq' : 2 * ((n % d : Int) : ℚ) = (d : ℚ) := by exact_mod_cast heq
    have := key 1 (Or.inr rfl) (fun h => by norm_num at h) (fun _ => heq'.ge)
    simpa using this

theorem cvRound_err (x : ℚ) : |((cvRound x : Int) : ℚ) - x| ≤ 1 / 2 := by
  have h := cvRound_div_err x.num x.den (by exact_mod_cast x.den_pos)
  have hx : (x.num : ℚ) / ((x.den : Int) : ℚ) = x := by
    have := Rat.num_div_den x
    simpa using this
  rw [hx] at h
  exact h

theorem cvRound_mono {x y : ℚ} (h : x ≤ y) : cvRound x ≤ cvRound y := by
  by_contra hcon
  have hlt : cvRound y + 1 ≤ cvRound x := by omega
  have hltq : ((cvRound y : Int) : ℚ) + 1 ≤ ((cvRound x : Int) : ℚ) := by exact_mod_cast hlt
  have hx := abs_le.mp (cvRound_err x)
  have hy := abs_le.mp (cvRound_err y)
  have hxy : x = y := by linarith [hx.1, hx.2, hy.1, hy.2]
  rw [hxy] at hcon
  exact hcon (le_refl _)

theorem cvRound_eq_of_close (x : ℚ) (m : Int) (h : |x - (m : ℚ)| < 1 / 2) : cvRound x = m := by
  have hx := abs_le.mp (cvRound_err x)
  have hm := abs_lt.mp h
  have h1 : ((cvRound x : Int) : ℚ) < (m : ℚ) + 1 := by linarith [hx.2, hm.2]
  have h2 : (m : ℚ) - 1 < ((cvRound x : Int) : ℚ) := by linarith [hx.1, hm.1]
  have h1' : cvRound x < m + 1 := by exact_mod_cast h1
  have h2' : m - 1 < cvRound x := by exact_mod_cast h2
  omega

theorem cvRound_intCast (m : Int) : cvRound (m : ℚ) = m :=
  cvRound_eq_of_close _ m (by simp)

theorem two_zpow_pos (z : Int) : (0 : ℚ) < (2 : ℚ) ^ z := zpow_pos (by norm_num) z

theorem log_two_bounds {x : ℚ} (hx : 0 < x) :
    (2 : ℚ) ^ Int.log 2 x ≤ x ∧ x < (2 : ℚ) ^ (Int.log 2 x + 1) := by
  have h1 := Int.zpow_log_le_self (b := 2) (r := x) (by norm_num) hx
  have h2 := Int.lt_zpow_succ_log_self (b := 2) (by norm_num) x
  simpa using And.intro h1 h2

theorem log_two_ge {x : ℚ} (hx : 0 < x) {z : Int} (h : (2 : ℚ) ^ z ≤ x) : z ≤ Int.log 2 x := by
  have := (Int.zpow_le_iff_le_log (b := 2) (by norm_num) (x := z) hx).mp (by simpa using h)
  exact this

theorem log_two_lt {x : ℚ} (hx : 0 < x) {z : Int} (h : x < (2 : ℚ) ^ z) : Int.log 2 x < z := by
  have := (Int.lt_zpow_iff_log_lt (b := 2) (by norm_num) (x := z) hx).mp (by simpa using h)
  exact this

/-- The quotient of a positive value by its unit in the last place is below `2 ^ p`. -/
theorem quotient_lt (p : Nat) (emin : Int) {x : ℚ} (hx : 0 < x) :
    x / (2 : ℚ) ^ (max (Int.log 2 x) emin - (p : Int) + 1) < (2 : ℚ) ^ (p : Int) := by
  rw [div_lt_iff₀ (two_zpow_pos _), ← zpow_add₀ (by norm_num : (2 : ℚ) ≠ 0)]
  have h := (log_two_bounds hx).2
  refine lt_of_lt_of_le h (zpow_le_zpow_right₀ (by norm_num) ?_)
  have := le_max_left (Int.log 2 x) emin
  omega

/-- In the normal range the quotient is at least `2 ^ (p - 1)`. -/
theorem quotient_ge (p : Nat) (emin : Int) {x : ℚ} (hx : 0 < x) (hn : emin ≤ Int.log 2 x) :
    (2 : ℚ) ^ ((p : Int) - 1) ≤ x / (2 : ℚ) ^ (max (Int.log 2 x) emin - (p : Int) + 1) := by
  rw [le_div_iff₀ (two_zpow_pos _), ← zpow_add₀ (by norm_num : (2 : ℚ) ≠ 0), max_eq_left hn]
  have h := (log_two_bounds hx).1
  have he : (p : Int) - 1 + (Int.log 2 x - (p : Int) + 1) = Int.log 2 x := by ring
  rw [he]
  exact h

theorem round_magnitude_nonneg (p : Nat) (emin : Int) {x : ℚ} (hx : 0 < x) :
    0 ≤ round_magnitude p emin x := by
  unfold round_magnitude
  dsimp only
  have hq : 0 ≤ x / (2 : ℚ) ^ (max (Int.log 2 x) emin - (p : Int) + 1) :=
    div_nonneg hx.le (two_zpow_pos _).le
  have hk : (0 : Int) ≤ cvRound (x / (2 : ℚ) ^ (max (Int.log 2 x) emin - (p : Int) + 1)) := by
    have := cvRound_mono hq
    rwa [show cvRound (0 : ℚ) = 0 from by simpa using cvRound_intCast 0] at this
  exact mul_nonneg (by exact_mod_cast hk) (two_zpow_pos _).le

theorem scaled_round_err (x u k : ℚ) (hu : 0 < u) (hk : |k - x / u| ≤ 1 / 2) :
    |k * u - x| ≤ u / 2 := by
  have h : k * u - x = (k - x / u) * u := by
    field_simp
  rw [h, abs_mul, abs_of_pos hu]
  calc |k - x / u| * u ≤ 1 / 2 * u := mul_le_mul_of_nonneg_right hk hu.le
    _ = u / 2 := by ring

/-- The rounding error is at most half a unit in the last place. -/
theorem round_magnitude_err (p : Nat) (emin : Int) (x : ℚ) :
    |round_magnitude p emin x - x|
      ≤ (2 : ℚ) ^ (max (Int.log 2 x) emin - (p : Int) + 1) / 2 := by
  unfold round_magnitude
  dsimp only
  exact scaled_round_err x _ _ (two_zpow_pos _) (cvRound_err _)

/-- In the normal range the relative rounding error is at most `2 ^ (-p)`. -/
theorem round_magnitude_rel (p : Nat) (emin : Int) {x : ℚ} (hx : 0 < x)
    (hn : (2 : ℚ) ^ emin ≤ x) :
    |round_magnitude p emin x - x| ≤ x / (2 : ℚ) ^ (p : Int) := by
  have hL : emin ≤ Int.log 2 x := log_two_ge hx hn
  have h := round_magnitude_err p emin x
  rw [max_eq_left hL] at h
  refine le_trans h ?_
  have h1 := (log_two_bounds hx).1
  have he : (2 : ℚ) ^ (Int.log 2 x - (p : Int) + 1) / 2
      = (2 : ℚ) ^ Int.log 2 x / (2 : ℚ) ^ (p : Int) := by
    rw [zpow_add₀ (by norm_num : (2 : ℚ) ≠ 0), zpow_sub₀ (by norm_num : (2 : ℚ) ≠ 0)]
    simp
  rw [he]
  exact div_le_div_of_nonneg_right h1 (two_zpow_pos _).le

theorem two_zpow_natCast (n : Nat) : (2 : ℚ) ^ (n : Int) = (((2 : Int) ^ n : Int) : ℚ) := by
  rw [zpow_natCast]; push_cast; rfl

theorem two_zpow_pred (p : Nat) (hp : 1 ≤ p) :
    (2 : ℚ) ^ ((p : Int) - 1) = (((2 : Int) ^ (p - 1) : Int) : ℚ) := by
  have h : (p : Int) - 1 = ((p - 1 : Nat) : Int) := by omega
  rw [h, two_zpow_natCast]

/-- A value `k * 2 ^ j` with `0 < k ≤ 2 ^ p` and `j` not below the smallest exponent of the
format is representable: rounding returns it unchanged. -/
theorem round_magnitude_exact (p : Nat) (emin : Int) (hp : 1 ≤ p) (k : Nat) (hk0 : 0 < k)
    (hk : k ≤ 2 ^ p) (j : Int) (hj : emin - (p : Int) + 1 ≤ j) :
    round_magnitude p emin ((k : ℚ) * (2 : ℚ) ^ j) = (k : ℚ) * (2 : ℚ) ^ j := by
  have h2 : (2 : ℚ) ≠ 0 := by norm_num
  have hkq : (0 : ℚ) < (k : ℚ) := by exact_mod_cast hk0
  have hx : (0 : ℚ) < (k : ℚ) * (2 : ℚ) ^ j := mul_pos hkq (two_zpow_pos j)
  obtain ⟨hL1, hL2⟩ := log_two_bounds hx
  have hkle : (k : ℚ) ≤ (2 : ℚ) ^ (p : Int) := by
    rw [zpow_natCast]; exact_mod_cast hk
  have hLle : Int.log 2 ((k : ℚ) * (2 : ℚ) ^ j) ≤ (p : Int) + j := by
    have : (2 : ℚ) ^ Int.log 2 ((k : ℚ) * (2 : ℚ) ^ j) ≤ (2 : ℚ) ^ ((p : Int) + j) := by
      rw [zpow_add₀ h2]
      exact le_trans hL1 (mul_le_mul_of_nonneg_right hkle (two_zpow_pos j).le)
    exact (zpow_le_zpow_iff_right₀ (by norm_num : (1 : ℚ) < 2)).mp this
  have hint : ∃ m : Int, (k : ℚ) * (2 : ℚ) ^ j
      / (2 : ℚ) ^ (max (Int.log 2 ((k : ℚ) * (2 : ℚ) ^ j)) emin - (p : Int) + 1) = (m : ℚ) := by
    by_cases hc : max (Int.log 2 ((k : ℚ) * (2 : ℚ) ^ j)) emin - (p : Int) + 1 ≤ j
    · obtain ⟨n, hn⟩ := Int.eq_ofNat_of_zero_le (sub_nonneg.mpr hc)
      refine ⟨(k : Int) * (2 : Int) ^ n, ?_⟩
      rw [mul_div_assoc, ← zpow_sub₀ h2, hn]
      push_cast
      rw [zpow_natCast]
    · have hmax : max (Int.log 2 ((k : ℚ) * (2 : ℚ) ^ j)) emin
          = Int.log 2 ((k : ℚ) * (2 : ℚ) ^ j) := by
        rcases max_cases (Int.log 2 ((k : ℚ) * (2 : ℚ) ^ j)) emin with ⟨h, _⟩ | ⟨h, _⟩
        · exact h
        · rw [h] at hc; omega
      rw [hmax] at hc ⊢
      have hLeq : Int.log 2 ((k : ℚ) * (2 : ℚ) ^ j) = (p : Int) + j := by omega
      have hkge : (2 : ℚ) ^ (p : Int) ≤ (k : ℚ) := by
        have : (2 : ℚ) ^ ((p : Int) + j) ≤ (k : ℚ) * (2 : ℚ) ^ j := by rw [← hLeq]; exact hL1
        rw [zpow_add₀ h2] at this
        exact le_of_mul_le_mul_right this (two_zpow_pos j)
      have hkeq : (k : ℚ) = (2 : ℚ) ^ (p : Int) := le_antisymm hkle hkge
      refine ⟨(2 : Int) ^ (p - 1), ?_⟩
      rw [hLeq, hkeq, ← zpow_add₀ h2, ← zpow_sub₀ h2, ← two_zpow_pred p hp]
      congr 1
      ring
  obtain ⟨m, hm⟩ := hint
  unfold round_magnitude
  dsimp only
  rw [hm, cvRound_intCast, ← hm, div_mul_cancel₀ _ (ne_of_gt (two_zpow_pos _))]

theorem round_binary_zero (p : Nat) (emin : Int) : round_binary p emin 0 = 0 := by
  simp [round_binary]

theorem round_binary_of_pos (p : Nat) (emin : Int) {x : ℚ} (hx : 0 < x) :
    round_binary p emin x = round_magnitude p emin x := by
  simp [round_binary, ne_of_gt hx, not_lt.mpr hx.le]

theorem round_binary_of_neg (p : Nat) (emin : Int) {x : ℚ} (hx : x < 0) :
    round_binary p emin x = -round_magnitude p emin (-x) := by
  simp [round_binary, ne_of_lt hx, hx]

theorem round_binary_nonneg (p : Nat) (emin : Int) {x : ℚ} (hx : 0 ≤ x) :
    0 ≤ round_binary p emin x := by
  rcases eq_or_lt_of_le hx with h | h
  · rw [← h, round_binary_zero]
  · rw [round_binary_of_pos p emin h]; exact round_magnitude_nonneg p emin h

/-- A natural number up to `2 ^ p` is representable. -/
theorem round_binary_natCast (p : Nat) (emin : Int) (hp : 1 ≤ p) (he : emin ≤ (p : Int) - 1)
    (n : Nat) (hn : n ≤ 2 ^ p) : round_binary p emin (n : ℚ) = (n : ℚ) := by
  rcases Nat.eq_zero_or_pos n with h | h
  · subst h; simp [round_binary_zero]
  · have hq : (0 : ℚ) < (n : ℚ) := by exact_mod_cast h
    rw [round_binary_of_pos p emin hq]
    have := round_magnitude_exact p emin hp n h hn 0 (by omega)
    simpa using this

/-- Rounding a rounded value changes nothing. -/
theorem round_binary_idem (p : Nat) (emin : Int) (hp : 1 ≤ p) {x : ℚ} (hx : 0 ≤ x) :
    round_binary p emin (round_binary p emin x) = round_binary p emin x := by
  rcases eq_or_lt_of_le hx with h | h
  · rw [← h, round_binary_zero, round_binary_zero]
  · rw [round_binary_of_pos p emin h]
    have hq := quotient_lt p emin h
    have hq0 : 0 ≤ x / (2 : ℚ) ^ (max (Int.log 2 x) emin - (p : Int) + 1) :=
      div_nonneg h.le (two_zpow_pos _).le
    have hk0 : (0 : Int) ≤ cvRound (x / (2 : ℚ) ^ (max (Int.log 2 x) emin - (p : Int) + 1)) := by
      have := cvRound_mono hq0
      rwa [show cvRound (0 : ℚ) = 0 from by simpa using cvRound_intCast 0] at this
    have hk1 : cvRound (x / (2 : ℚ) ^ (max (Int.log 2 x) emin - (p : Int) + 1))
        ≤ (2 : Int) ^ p := by
      have := cvRound_mono hq.le
      rwa [two_zpow_natCast, cvRound_intCast] at this
    obtain ⟨k, hk⟩ := Int.eq_ofNat_of_zero_le hk0
    have hval : round_magnitude p emin x
        = (k : ℚ) * (2 : ℚ) ^ (max (Int.log 2 x) emin - (p : Int) + 1) := by
      unfold round_magnitude
      dsimp only
      rw [hk]
      push_cast
      rfl
    rcases Nat.eq_zero_or_pos k with hz | hpos
    · rw [hval, hz]; simp [round_binary_zero]
    · rw [hval]
      have hkle : k ≤ 2 ^ p := by
        rw [hk] at hk1
        exact_mod_cast hk1
      have hxpos : (0 : ℚ) < (k : ℚ) * (2 : ℚ) ^ (max (Int.log 2 x) emin - (p : Int) + 1) :=
        mul_pos (by exact_mod_cast hpos) (two_zpow_pos _)
      rw [round_binary_of_pos p emin hxpos]
      exact round_magnitude_exact p emin hp k hpos hkle _
        (by have := le_max_right (Int.log 2 x) emin; omega)

/-- Rounding of positive values is monotone. -/
theorem round_magnitude_mono (p : Nat) (emin : Int) (hp : 1 ≤ p) {x y : ℚ} (hx : 0 < x)
    (hxy : x ≤ y) : round_magnitude p emin x ≤ round_magnitude p emin y := by
  have h2 : (2 : ℚ) ≠ 0 := by norm_num
  have hy : 0 < y := lt_of_lt_of_le hx hxy
  have hlog : Int.log 2 x ≤ Int.log 2 y := Int.log_mono_right hx hxy
  have hmax : max (Int.log 2 x) emin ≤ max (Int.log 2 y) emin := max_le_max hlog (le_refl _)
  rcases eq_or_lt_of_le hmax with heq | hlt
  · unfold round_magnitude
    dsimp only
    rw [heq]
    have hq : x / (2 : ℚ) ^ (max (Int.log 2 y) emin - (p : Int) + 1)
        ≤ y / (2 : ℚ) ^ (max (Int.log 2 y) emin - (p : Int) + 1) :=
      div_le_div_of_nonneg_right hxy (two_zpow_pos _).le
    have hk := cvRound_mono hq
    exact mul_le_mul_of_nonneg_right (by exact_mod_cast hk) (two_zpow_pos _).le
  · have hny : emin ≤ Int.log 2 y := by
      rcases max_cases (Int.log 2 y) emin with ⟨h, hh⟩ | ⟨h, _⟩
      · exact hh
      · have := le_max_right (Int.log 2 x) emin
        rw [h] at hlt; omega
    have hupper : round_magnitude p emin x ≤ (2 : ℚ) ^ (max (Int.log 2 x) emin + 1) := by
      unfold round_magnitude
      dsimp only
      have hk : cvRound (x / (2 : ℚ) ^ (max (Int.log 2 x) emin - (p : Int) + 1))
          ≤ (2 : Int) ^ p := by
        have := cvRound_mono (quotient_lt p emin hx).le
        rwa [two_zpow_natCast, cvRound_intCast] at this
      have hkq : ((cvRound (x / (2 : ℚ) ^ (max (Int.log 2 x) emin - (p : Int) + 1)) : Int) : ℚ)
          ≤ (2 : ℚ) ^ (p : Int) := by
        rw [two_zpow_natCast]; exact_mod_cast hk
      calc _ ≤ (2 : ℚ) ^ (p : Int) * (2 : ℚ) ^ (max (Int.log 2 x) emin - (p : Int) + 1) :=
            mul_le_mul_of_nonneg_right hkq (two_zpow_pos _).le
        _ = (2 : ℚ) ^ (max (Int.log 2 x) emin + 1) := by
            rw [← zpow_add₀ h2]; congr 1; ring
    have hlower : (2 : ℚ) ^ (max (Int.log 2 y) emin) ≤ round_magnitude p emin y := by
      unfold round_magnitude
      dsimp only
      have hk : (2 : Int) ^ (p - 1)
          ≤ cvRound (y / (2 : ℚ) ^ (max (Int.log 2 y) emin - (p : Int) + 1)) := by
        have := cvRound_mono (quotient_ge p emin hy hny)
        rwa [two_zpow_pred p hp, cvRound_intCast] at this
      have hkq : (2 : ℚ) ^ ((p : Int) - 1)
          ≤ ((cvRound (y / (2 : ℚ) ^ (max (Int.log 2 y) emin - (p : Int) + 1)) : Int) : ℚ) := by
        rw [two_zpow_pred p hp]; exact_mod_cast hk
      calc (2 : ℚ) ^ (max (Int.log 2 y) emin)
          = (2 : ℚ) ^ ((p : Int) - 1) * (2 : ℚ) ^ (max (Int.log 2 y) emin - (p : Int) + 1) := by
            rw [← zpow_add₀ h2]; congr 1; ring
        _ ≤ _ := mul_le_mul_of_nonneg_right hkq (two_zpow_pos _).le
    have hmid : (2 : ℚ) ^ (max (Int.log 2 x) emin + 1) ≤ (2 : ℚ) ^ (max (Int.log 2 y) emin) :=
      zpow_le_zpow_right₀ (by norm_num) (by omega)
    exact le_trans hupper (le_trans hmid hlower)

/-- Rounding is monotone. -/
theorem round_binary_mono (p : Nat) (emin : Int) (hp : 1 ≤ p) {x y : ℚ} (hxy : x ≤ y) :
    round_binary p emin x ≤ round_binary p emin y := by
  rcases lt_trichotomy x 0 with hx | hx | hx
  · rcases lt_trichotomy y 0 with hy | hy | hy
    · rw [round_binary_of_neg p emin hx, round_binary_of_neg p emin hy, neg_le_neg_iff]
      exact round_magnitude_mono p emin hp (by linarith) (by linarith)
    · rw [hy, round_binary_zero, round_binary_of_neg p emin hx]
      have := round_magnitude_nonneg p emin (show 0 < -x by linarith)
      linarith
    · rw [round_binary_of_neg p emin hx]
      have h1 := round_magnitude_nonneg p emin (show 0 < -x by linarith)
      have h2 := round_binary_nonneg p emin hy.le
      linarith
  · rw [hx, round_binary_zero]
    exact round_binary_nonneg p emin (by linarith)
  · have hy : 0 < y := lt_of_lt_of_le hx hxy
    rw [round_binary_of_pos p emin hx, round_binary_of_pos p emin hy]
    exact round_magnitude_mono p emin hp hx hxy

/-- In the normal range rounding keeps a positive value within the relative error
`2 ^ (-p)`. -/
theorem round_binary_rel (p : Nat) (emin : Int) {x : ℚ} (hx : 0 < x)
    (hn : (2 : ℚ) ^ emin ≤ x) :
    x - x / (2 : ℚ) ^ (p : Int) ≤ round_binary p emin x ∧
    round_binary p emin x ≤ x + x / (2 : ℚ) ^ (p : Int) := by
  rw [round_binary_of_pos p emin hx]
  have h := abs_le.mp (round_magnitude_rel p emin hx hn)
  constructor <;> linarith [h.1, h.2]

theorem to_float_zero : to_float 0 = 0 := round_binary_zero 24 (-126)

theorem to_double_zero : to_double 0 = 0 := round_binary_zero 53 (-1022)

theorem to_float_natCast (n : Nat) (hn : n ≤ 16777216) : to_float (n : ℚ) = (n : ℚ) :=
  round_binary_natCast 24 (-126) (by norm_num) (by norm_num) n (by norm_num; exact hn)

theorem to_double_natCast (n : Nat) (hn : n ≤ 9007199254740992) :
    to_double (n : ℚ) = (n : ℚ) :=
  round_binary_natCast 53 (-1022) (by norm_num) (by norm_num) n (by norm_num; exact hn)

theorem to_float_of_nat (x : ℚ) (n : Nat) (hx : x = (n : ℚ)) (hn : n ≤ 16777216) :
    to_float x = (n : ℚ) := by
  rw [hx]; exact to_float_natCast n hn

theorem to_double_of_nat (x : ℚ) (n : Nat) (hx : x = (n : ℚ)) (hn : n ≤ 9007199254740992) :
    to_double x = (n : ℚ) := by
  rw [hx]; exact to_double_natCast n hn

theorem to_float_idem {x : ℚ} (hx : 0 ≤ x) : to_float (to_float x) = to_float x :=
  round_binary_idem 24 (-126) (by norm_num) hx

theorem to_double_idem {x : ℚ} (hx : 0 ≤ x) : to_double (to_double x) = to_double x :=
  round_binary_idem 53 (-1022) (by norm_num) hx

theorem to_float_mono {x y : ℚ} (h : x ≤ y) : to_float x ≤ to_float y :=
  round_binary_mono 24 (-126) (by norm_num) h

theorem to_double_mono {x y : ℚ} (h : x ≤ y) : to_double x ≤ to_double y :=
  round_binary_mono 53 (-1022) (by norm_num) h

theorem to_float_nonneg {x : ℚ} (h : 0 ≤ x) : 0 ≤ to_float x :=
  round_binary_nonneg 24 (-126) h

theorem to_double_nonneg {x : ℚ} (h : 0 ≤ x) : 0 ≤ to_double x :=
  round_binary_nonneg 53 (-1022) h

/-- A `float` result is within the relative error `2 ^ (-24)` of the exact value. -/
theorem to_float_rel {x : ℚ} (hx : 1 / 1048576 ≤ x) :
    x - x / 16777216 ≤ to_float x ∧ to_float x ≤ x + x / 16777216 := by
  have hpos : (0 : ℚ) < x := lt_of_lt_of_le (by norm_num) hx
  have hn : (2 : ℚ) ^ (-126 : Int) ≤ x := by
    refine le_trans ?_ hx
    have h1 : (2 : ℚ) ^ (-126 : Int) ≤ (2 : ℚ) ^ (-20 : Int) :=
      zpow_le_zpow_right₀ (by norm_num) (by norm_num)
    have h2 : (2 : ℚ) ^ (-20 : Int) = 1 / 1048576 := by
      rw [zpow_neg]; norm_num
    rw [← h2]; exact h1
  have h := round_binary_rel 24 (-126) hpos hn
  have hp : (2 : ℚ) ^ ((24 : Nat) : Int) = 16777216 := by norm_num
  rw [hp] at h
  exact h

/-- A `double` result is within the relative error `2 ^ (-53)` of the exact value. -/
theorem to_double_rel {x : ℚ} (hx : 1 / 1048576 ≤ x) :
    x - x / 9007199254740992 ≤ to_double x ∧ to_double x ≤ x + x / 9007199254740992 := by
  have hpos : (0 : ℚ) < x := lt_of_lt_of_le (by norm_num) hx
  have hn : (2 : ℚ) ^ (-1022 : Int) ≤ x := by
    refine le_trans ?_ hx
    have h1 : (2 : ℚ) ^ (-1022 : Int) ≤ (2 : ℚ) ^ (-20 : Int) :=
      zpow_le_zpow_right₀ (by norm_num) (by norm_num)
    have h2 : (2 : ℚ) ^ (-20 : Int) = 1 / 1048576 := by
      rw [zpow_neg]; norm_num
    rw [← h2]; exact h1
  have h := round_binary_rel 53 (-1022) hpos hn
  have hp : (2 : ℚ) ^ ((53 : Nat) : Int) = 9007199254740992 := by norm_num
  rw [hp] at h
  exact h

/-! ## C1: the unshift step -/

/-- C1 (claim as stated fails): for the 16-bit sample 1088 and shift 2 the unshift step
stores the byte 0, the low eight bits of `(1088 - 64) >> 2 = 256`, whereas the clamped
value of the claim is 255. -/
theorem unshift_sample_not_clamped :
    (unshift_sample 1088 2).val = 0 ∧ unshift_clamped_spec 1088 2 = 255 := by
  decide

/-- C1 (amended): for every shift amount (2 and 4 are the ones the unshift step runs with)
and every sample `v`, the byte stored by the unshift step is 0 when `v ≤ 64` and otherwise
the low eight bits of `(v - 64) >> shift`, that is `(v - 64) / 2 ^ shift` modulo 256, not a
clamped value; it agrees with the clamped value of the claim whenever `(v - 64) >> shift`
does not exceed 255; the three sample values of the claim come out as 34, 0 and 0; the
loop over a frame stores exactly these bytes for its first `height * width` samples; and
with shift 0 `decode_a_frame` hands the buffer words to the YUY2 conversion as they are, no
byte being unshifted. -/
theorem unshift_sample_low_byte (shift v : Nat) :
    (unshift_sample v shift).val = (if v ≤ 64 then 0 else ((v - 64) / 2 ^ shift) % 256) ∧
    ((v - 64) >>> shift ≤ 255 → (unshift_sample v shift).val = unshift_clamped_spec v shift) ∧
    (unshift_sample 200 2).val = 34 ∧ (unshift_sample 50 2).val = 0 ∧
    (unshift_sample 65 2).val = 0 ∧
    (∀ (height width : Nat) (src : List Nat),
      (unshift_frame height width shift src).map Fin.val =
        (src.take (height * width)).map
          (fun ts => if ts ≤ 64 then 0 else ((ts - 64) / 2 ^ shift) % 256)) ∧
    (∀ (cv : OpenCV) (dev : Device) (p : List Nat) (esc : Bool) (w : World),
      decode_a_frame cv dev p 0 esc w =
        show_and_poll (cv.cvtColor_yuy2 dev.height dev.width p) esc
          (save_bmp_if_requested w)) := by
  have hsample : ∀ ts : Nat, (unshift_sample ts shift).val
      = (if ts ≤ 64 then 0 else ((ts - 64) / 2 ^ shift) % 256) := by
    intro ts
    by_cases h : ts ≤ 64
    · have h' : ¬ ts > 64 := by omega
      simp [unshift_sample, h, h', to_uchar_val]
    · have h' : ts > 64 := by omega
      simp [unshift_sample, h, h', to_uchar_val, Nat.shiftRight_eq_div_pow]
  refine ⟨hsample v, ?_, by decide, by decide, by decide, ?_, ?_⟩
  · intro hle
    by_cases h : v ≤ 64
    · have h' : ¬ v > 64 := by omega
      simp [unshift_sample, unshift_clamped_spec, h, h', to_uchar_val]
    · have h' : v > 64 := by omega
      simp only [unshift_sample, h', unshift_clamped_spec, h, if_true, if_false,
        to_uchar_val]
      rw [Nat.min_eq_left hle]
      exact Nat.mod_eq_of_lt (by omega)
  · intro height width src
    unfold unshift_frame
    rw [List.map_map]
    apply List.map_congr_left
    intro ts _
    exact hsample ts
  · intro cv dev p esc w
    simp [decode_a_frame]

/-- Witness of `unshift_sample_low_byte` at shift 2 and the sample 1088: the stored byte
is `256 % 256 = 0`. -/
theorem unshift_sample_low_byte_witness :
    (unshift_sample 1088 2).val = (if 1088 ≤ 64 then 0 else ((1088 - 64) / 2 ^ 2) % 256) :=
  (unshift_sample_low_byte 2 1088).1

/-! ## C9: the bayer pattern increment -/

/-- C9: for every integer value `f` of the bayer flag, `add_bayer_forcv` returns 0, 1, 2, 3
for `f` = 1, 2, 3, 4 and 2 for every other `f`; the result lies between 0 and 3, and the
conversion code handed to `cvtColor` is `CV_BayerBG2BGR` plus 0, 1, 2 or 3. -/
theorem add_bayer_forcv_table (f : Int) :
    (f = 1 → add_bayer_forcv f = 0) ∧ (f = 2 → add_bayer_forcv f = 1) ∧
    (f = 3 → add_bayer_forcv f = 2) ∧ (f = 4 → add_bayer_forcv f = 3) ∧
    (f ≠ 1 → f ≠ 2 → f ≠ 3 → f ≠ 4 → add_bayer_forcv f = 2) ∧
    (0 ≤ add_bayer_forcv f ∧ add_bayer_forcv f ≤ 3) ∧
    (bayer_conversion_code f = CV_BayerBG2BGR ∨ bayer_conversion_code f = CV_BayerBG2BGR + 1 ∨
      bayer_conversion_code f = CV_BayerBG2BGR + 2 ∨
      bayer_conversion_code f = CV_BayerBG2BGR + 3) := by
  unfold bayer_conversion_code add_bayer_forcv
  refine ⟨?_, ?_, ?_, ?_, ?_, ?_, ?_⟩
  · intro h; simp [h]
  · intro h; simp [h]
  · intro h; simp [h]
  · intro h; simp [h]
  · intro h1 h2 h3 h4; simp [h1, h2, h3, h4]
  · split_ifs <;> omega
  · split_ifs <;> simp

/-- Witness of `add_bayer_forcv_table` at the unrecognised flag value 7: the increment
is 2. -/
theorem add_bayer_forcv_table_witness :
    add_bayer_forcv 7 = 2 :=
  (add_bayer_forcv_table 7).2.2.2.2.1 (by decide) (by decide) (by decide) (by decide)

/-! ## C4 and C8: white balance -/

/-- C4 (the code departs from the claim): on the one-pixel image with blue 0, green 100,
red 100 the gain-adjusted values are 0, 157, 184 and the red row gives 210.  The claim
takes the green row on the gain-adjusted red 184 and gets 189; `apply_white_balance`
reads the red plane it has just overwritten (210) and returns green 175. -/
theorem apply_white_balance_green_row_reads_new_red :
    apply_white_balance [{ b := 0, g := 100, r := 100 }] = [{ b := 0, g := 175, r := 210 }] ∧
    white_balance_spec [{ b := 0, g := 100, r := 100 }] = [{ b := 0, g := 189, r := 210 }] ∧
    round256 (100 * KG) = 157 ∧ round256 (100 * KR) = 184 ∧
    round256 (184 * rr + 157 * rg) = 210 ∧
    round256 (184 * gr + 157 * gg) = 189 ∧
    round256 (210 * gr + 157 * gg) = 175 := by
  decide

/-- C8: `apply_white_balance` applies one fixed pixel function to every pixel, whatever
the rest of the image (the channel means do not enter the result), applying it twice
applies that function twice, and it is not idempotent: on the one-pixel image with blue 0,
green 100, red 100 the first pass gives (0, 175, 210) and the second (0, 255, 255). -/
theorem apply_white_balance_not_idempotent :
    (∃ f : Pixel → Pixel,
      (∀ img : Image, apply_white_balance img = img.map f) ∧
      (∀ img : Image, apply_white_balance (apply_white_balance img) = img.map (f ∘ f))) ∧
    (∃ img : Image,
      apply_white_balance (apply_white_balance img) ≠ apply_white_balance img) := by
  refine ⟨⟨white_balance_pixel, apply_white_balance_eq_map, ?_⟩, ?_⟩
  · intro img
    rw [apply_white_balance_eq_map, apply_white_balance_eq_map, List.map_map]
  · refine ⟨[{ b := 0, g := 100, r := 100 }], ?_⟩
    rw [white_balance_first_pass, white_balance_second_pass]
    decide

/-! ## C2: a failed mapping in `video_alloc_buffers` -/

/-- C2 (the code departs from the claim): two buffers are requested and granted, the query
of index 0 succeeds with return value 0 and `mmap` fails.  `video_alloc_buffers` queries
and tries to map index 0, touches no further index, leaves `dev->buffers` unassigned, and
returns 0, the value left in `ret` by the successful query. -/
theorem video_alloc_buffers_map_failure_returns_zero :
    video_alloc_buffers
      { reqbufs_ret := 0, reqbufs_count := 2, malloc_ok := true,
        querybuf_ret := fun _ => 0, querybuf_length := fun _ => 4096,
        querybuf_offset := fun i => 4096 * i, mmap_result := fun _ => none,
        qbuf_ret := fun _ => 0 }
      { width := 640, height := 480, imagesize := 614400, nbufs := 0, buffers := none } 2
    = (0,
       { width := 640, height := 480, imagesize := 614400, nbufs := 2, buffers := none },
       [AllocEvent.request 2, AllocEvent.malloc 2, AllocEvent.query 0,
        AllocEvent.write_length 0 4096, AllocEvent.map 0 4096 0,
        AllocEvent.write_start 0 none]) := by
  decide

/-- When the first failing `mmap` is the one of index `i + j`, every step before it having
succeeded, the mapping loop returns the value of the query of that index. -/
theorem map_buffers_map_failure (env : AllocEnv) :
    ∀ (j k i : Nat) (ev : List AllocEvent), j < k →
      (∀ t, t < j → 0 ≤ env.querybuf_ret (i + t) ∧ (env.mmap_result (i + t)).isSome = true ∧
        0 ≤ env.qbuf_ret (i + t)) →
      0 ≤ env.querybuf_ret (i + j) → env.mmap_result (i + j) = none →
      (map_buffers env k i ev).1 = some (env.querybuf_ret (i + j)) := by
  intro j
  induction j with
  | zero =>
    intro k i ev hk _ hq hm
    obtain ⟨k, rfl⟩ : ∃ k', k = k' + 1 := ⟨k - 1, by omega⟩
    simp only [Nat.add_zero] at hq hm
    simp [map_buffers, not_lt.mpr hq, hm]
  | succ j ih =>
    intro k i ev hk hprev hq hm
    obtain ⟨k, rfl⟩ : ∃ k', k = k' + 1 := ⟨k - 1, by omega⟩
    obtain ⟨h0q, h0m, h0b⟩ := hprev 0 (by omega)
    simp only [Nat.add_zero] at h0q h0m h0b
    obtain ⟨a, ha⟩ := Option.isSome_iff_exists.mp h0m
    have hstep : ∀ ev', (map_buffers env k (i + 1) ev').1
        = some (env.querybuf_ret (i + (j + 1))) := by
      intro ev'
      have := ih k (i + 1) ev' (by omega)
        (fun t ht => by
          have := hprev (t + 1) (by omega)
          simpa [Nat.add_assoc, Nat.add_comm 1 t] using this)
        (by simpa [Nat.add_assoc, Nat.add_comm 1 j] using hq)
        (by simpa [Nat.add_assoc, Nat.add_comm 1 j] using hm)
      simpa [Nat.add_assoc, Nat.add_comm 1 j] using this
    simp [map_buffers, not_lt.mpr h0q, ha, not_lt.mpr h0b, hstep]

/-- A failed `mmap` at index `j`, after successful requests, queries, maps and queueings
before it, makes `video_alloc_buffers` return the non-negative value of the query. -/
theorem video_alloc_buffers_map_failure (env : AllocEnv) (dev : Device) (nbufs : Int) (j : Nat)
    (hreq : 0 ≤ env.reqbufs_ret) (hmalloc : env.malloc_ok = true)
    (hj : j < (nbufs % 4294967296).toNat)
    (hprev : ∀ t, t < j → 0 ≤ env.querybuf_ret t ∧ (env.mmap_result t).isSome = true ∧
      0 ≤ env.qbuf_ret t)
    (hq : 0 ≤ env.querybuf_ret j) (hm : env.mmap_result j = none) :
    (video_alloc_buffers env dev nbufs).1 = env.querybuf_ret j ∧
    0 ≤ (video_alloc_buffers env dev nbufs).1 := by
  have h := map_buffers_map_failure env j (nbufs % 4294967296).toNat 0
    ([AllocEvent.request (nbufs % 4294967296).toNat] ++ [AllocEvent.malloc env.reqbufs_count]) hj
    (by simpa using hprev) (by simpa using hq) (by simpa using hm)
  simp only [Nat.zero_add] at h
  have hval : (video_alloc_buffers env dev nbufs).1 = env.querybuf_ret j := by
    simp only [video_alloc_buffers, not_lt.mpr hreq, hmalloc, if_false]
    generalize hmb : map_buffers env (nbufs % 4294967296).toNat 0
      ([AllocEvent.request (nbufs % 4294967296).toNat] ++
        [AllocEvent.malloc env.reqbufs_count]) = res at h
    obtain ⟨r, ev⟩ := res
    simp only at h
    subst h
    simp
  exact ⟨hval, hval ▸ hq⟩

/-! ## The decoder and the control flags -/

theorem save_bmp_if_requested_raw_writes (w : World) :
    (save_bmp_if_requested w).raw_writes = w.raw_writes := by
  unfold save_bmp_if_requested
  split
  · simp [World.raw_writes, FileWrite.isRaw]
  · rfl

theorem save_bmp_if_requested_flags (w : World) :
    (save_bmp_if_requested w).flags = { w.flags with save_bmp := 0 } := by
  unfold save_bmp_if_requested
  split
  · rfl
  · rename_i h
    have h0 : w.flags.save_bmp = 0 := not_not.mp h
    cases hw : w.flags
    rw [hw] at h0
    simp only at h0
    simp [h0]

theorem show_and_poll_flags (img : Image) (esc : Bool) (w : World) :
    (show_and_poll img esc w).flags = w.flags := by
  unfold show_and_poll
  split <;> rfl

theorem show_and_poll_raw_writes (img : Image) (esc : Bool) (w : World) :
    (show_and_poll img esc w).raw_writes = w.raw_writes := by
  unfold show_and_poll
  split <;> rfl

theorem show_and_poll_status (img : Image) (esc : Bool) (w : World) :
    (show_and_poll img esc w).status = (if esc then Status.exited else w.status) := by
  unfold show_and_poll
  split <;> rfl

/-- The result of `decode_a_frame` is either the entry state marked undefined (the
brightness stage had no defined result) or a state reached through the bitmap step and
the display step. -/
theorem decode_a_frame_cases (cv : OpenCV) (dev : Device) (p : List Nat) (shift : Nat)
    (esc : Bool) (w : World) :
    decode_a_frame cv dev p shift esc w = { w with status := Status.undefined } ∨
    ∃ img, decode_a_frame cv dev p shift esc w
      = show_and_poll img esc (save_bmp_if_requested w) := by
  unfold decode_a_frame
  dsimp only
  split_ifs <;> (try split) <;> first | exact Or.inl rfl | exact Or.inr ⟨_, rfl⟩

theorem decode_a_frame_raw_writes (cv : OpenCV) (dev : Device) (p : List Nat) (shift : Nat)
    (esc : Bool) (w : World) :
    (decode_a_frame cv dev p shift esc w).raw_writes = w.raw_writes := by
  rcases decode_a_frame_cases cv dev p shift esc w with h | ⟨img, h⟩
  · rw [h]; rfl
  · rw [h, show_and_poll_raw_writes, save_bmp_if_requested_raw_writes]

theorem decode_a_frame_flags (cv : OpenCV) (dev : Device) (p : List Nat) (shift : Nat)
    (esc : Bool) (w : World) :
    (decode_a_frame cv dev p shift esc w).flags = w.flags ∨
    (decode_a_frame cv dev p shift esc w).flags = { w.flags with save_bmp := 0 } := by
  rcases decode_a_frame_cases cv dev p shift esc w with h | ⟨img, h⟩
  · left; rw [h]
  · right; rw [h, show_and_poll_flags, save_bmp_if_requested_flags]

theorem decode_a_frame_save_raw (cv : OpenCV) (dev : Device) (p : List Nat) (shift : Nat)
    (esc : Bool) (w : World) :
    (decode_a_frame cv dev p shift esc w).flags.save_raw = w.flags.save_raw := by
  rcases decode_a_frame_flags cv dev p shift esc w with h | h <;> rw [h]

/-! ## C10: the decoder and the shared flags -/

/-- C10 (claim as stated fails): entered with `save_bmp = 1` (a YUV frame, shift 0, no key
pressed), `decode_a_frame` writes the bitmap `captures_0.bmp` and returns with
`save_bmp = 0`. -/
theorem decode_a_frame_clears_save_bmp :
    (decode_a_frame
      { cvtColor_bayer := fun _ _ _ _ => [], cvtColor_yuy2 := fun _ _ _ => [],
        pow := fun x _ => x, bgr2gray := fun px => px.g }
      { width := 0, height := 0, imagesize := 0, nbufs := 1, buffers := some 1 } [] 0 false
      { flags := { save_bmp := 1, save_raw := 0, bayer_flag := 3, shift_flag := 3,
                   awb_flag := 0, abc_flag := 0, gamma_val := 1065353216 },
        image_count := 0, files := [], shown := [], status := Status.running })
    = { flags := { save_bmp := 0, save_raw := 0, bayer_flag := 3, shift_flag := 3,
                   awb_flag := 0, abc_flag := 0, gamma_val := 1065353216 },
        image_count := 1, files := [FileWrite.bmp (bmp_file_name 0)], shown := [[]],
        status := Status.running } := by
  decide

/-- C10 (amended): for every state, frame and shift, `decode_a_frame` leaves `save_raw`,
`bayer_flag`, `shift_flag`, `awb_flag`, `abc_flag` and `gamma_val` as they were; `save_bmp`
is either left as it was or reset to 0, and it is 0 after every call that reaches the
bitmap step (every call but one cut short in the brightness stage). -/
theorem decode_a_frame_flag_frame (cv : OpenCV) (dev : Device) (p : List Nat) (shift : Nat)
    (esc : Bool) (w : World) :
    (decode_a_frame cv dev p shift esc w).flags.save_raw = w.flags.save_raw ∧
    (decode_a_frame cv dev p shift esc w).flags.bayer_flag = w.flags.bayer_flag ∧
    (decode_a_frame cv dev p shift esc w).flags.shift_flag = w.flags.shift_flag ∧
    (decode_a_frame cv dev p shift esc w).flags.awb_flag = w.flags.awb_flag ∧
    (decode_a_frame cv dev p shift esc w).flags.abc_flag = w.flags.abc_flag ∧
    (decode_a_frame cv dev p shift esc w).flags.gamma_val = w.flags.gamma_val ∧
    ((decode_a_frame cv dev p shift esc w).flags.save_bmp = w.flags.save_bmp ∨
      (decode_a_frame cv dev p shift esc w).flags.save_bmp = 0) ∧
    (decode_a_frame cv dev p shift esc w = { w with status := Status.undefined } ∨
      (decode_a_frame cv dev p shift esc w).flags.save_bmp = 0) := by
  have hc := decode_a_frame_cases cv dev p shift esc w
  rcases decode_a_frame_flags cv dev p shift esc w with h | h
  · refine ⟨by rw [h], by rw [h], by rw [h], by rw [h], by rw [h], by rw [h],
      Or.inl (by rw [h]), ?_⟩
    rcases hc with hu | ⟨img, hi⟩
    · exact Or.inl hu
    · right
      rw [hi, show_and_poll_flags, save_bmp_if_requested_flags]
  · exact ⟨by rw [h], by rw [h], by rw [h], by rw [h], by rw [h], by rw [h],
      Or.inr (by rw [h]), Or.inr (by rw [h])⟩

/-! ## C3: the one-shot raw save -/

theorem save_raw_if_requested_clear (env : CycleEnv) (i : Nat) (w : World)
    (h : w.flags.save_raw = 0) : save_raw_if_requested env i w = w := by
  simp [save_raw_if_requested, h]

theorem save_raw_if_requested_set (env : CycleEnv) (i : Nat) (w : World)
    (h : w.flags.save_raw ≠ 0) :
    (save_raw_if_requested env i w).raw_writes = w.raw_writes ++
      [FileWrite.raw (raw_file_name w.image_count) i
        (v4l2_core_save_data_to_file (env.fopen_ok i) (env.fwrite_ok i))] ∧
    (save_raw_if_requested env i w).flags.save_raw = 0 := by
  simp [save_raw_if_requested, h, World.raw_writes, FileWrite.isRaw, set_save_raw_flag]

/-- Entered with `save_raw` clear, the loop of `get_a_frame` writes no raw dump and leaves
the flag clear, whatever the driver answers. -/
theorem get_a_frame_loop_clear (cv : OpenCV) (env : CycleEnv) (dev : Device) :
    ∀ (k i : Nat) (w : World), w.flags.save_raw = 0 →
      (get_a_frame_loop cv env dev k i w).raw_writes = w.raw_writes ∧
      (get_a_frame_loop cv env dev k i w).flags.save_raw = 0 := by
  intro k
  induction k with
  | zero => intro i w h; exact ⟨rfl, h⟩
  | succ k ih =>
    intro i w h
    have hdec_raw := decode_a_frame_raw_writes cv dev (env.frame i)
      (set_shift w.flags.shift_flag) (env.esc_pressed i) w
    have hdec_flag := decode_a_frame_save_raw cv dev (env.frame i)
      (set_shift w.flags.shift_flag) (env.esc_pressed i) w
    have ih' := ih (i + 1) (decode_a_frame cv dev (env.frame i)
      (set_shift w.flags.shift_flag) (env.esc_pressed i) w) (by rw [hdec_flag, h])
    simp only [get_a_frame_loop, save_raw_if_requested_clear env i w h]
    split_ifs
    · exact ⟨rfl, h⟩
    · exact ⟨hdec_raw, by rw [hdec_flag, h]⟩
    · exact ⟨hdec_raw, by rw [hdec_flag, h]⟩
    · exact ⟨by rw [ih'.1, hdec_raw], ih'.2⟩

/-- C3: with at least one buffer in the pool and every dequeue and requeue succeeding, a
cycle of `get_a_frame` entered with `save_raw` set makes exactly one raw dump, at loop
index 0 (the first dequeued buffer), named from the `image_count` on entry and logged with
whatever `v4l2_core_save_data_to_file` returned, and leaves `save_raw` at 0; a following
cycle, whatever the driver then answers, makes no raw dump and leaves the flag at 0. -/
theorem get_a_frame_raw_save_once (cv : OpenCV) (env env2 : CycleEnv) (dev : Device)
    (w : World) (hn : 1 ≤ dev.nbufs) (hdq : ∀ i, 0 ≤ env.dqbuf_ret i)
    (hq : ∀ i, 0 ≤ env.qbuf_ret i) (hset : w.flags.save_raw ≠ 0) :
    (get_a_frame cv env dev w).raw_writes = w.raw_writes ++
      [FileWrite.raw (raw_file_name w.image_count) 0
        (v4l2_core_save_data_to_file (env.fopen_ok 0) (env.fwrite_ok 0))] ∧
    (get_a_frame cv env dev w).flags.save_raw = 0 ∧
    (get_a_frame cv env2 dev (get_a_frame cv env dev w)).raw_writes
      = (get_a_frame cv env dev w).raw_writes ∧
    (get_a_frame cv env2 dev (get_a_frame cv env dev w)).flags.save_raw = 0 := by
  have hfirst : (get_a_frame cv env dev w).raw_writes = w.raw_writes ++
      [FileWrite.raw (raw_file_name w.image_count) 0
        (v4l2_core_save_data_to_file (env.fopen_ok 0) (env.fwrite_ok 0))] ∧
      (get_a_frame cv env dev w).flags.save_raw = 0 := by
    unfold get_a_frame
    obtain ⟨k, hk⟩ : ∃ k, dev.nbufs = k + 1 := ⟨dev.nbufs - 1, by omega⟩
    rw [hk]
    obtain ⟨hsr, hsf⟩ := save_raw_if_requested_set env 0 w hset
    have hdec_raw := decode_a_frame_raw_writes cv dev (env.frame 0)
      (set_shift (save_raw_if_requested env 0 w).flags.shift_flag) (env.esc_pressed 0)
      (save_raw_if_requested env 0 w)
    have hdec_flag := decode_a_frame_save_raw cv dev (env.frame 0)
      (set_shift (save_raw_if_requested env 0 w).flags.shift_flag) (env.esc_pressed 0)
      (save_raw_if_requested env 0 w)
    have hrest := get_a_frame_loop_clear cv env dev k (0 + 1)
      (decode_a_frame cv dev (env.frame 0)
        (set_shift (save_raw_if_requested env 0 w).flags.shift_flag) (env.esc_pressed 0)
        (save_raw_if_requested env 0 w)) (by rw [hdec_flag, hsf])
    simp only [get_a_frame_loop, not_lt.mpr (hdq 0), not_lt.mpr (hq 0), if_false]
    split_ifs
    · exact ⟨by rw [hdec_raw, hsr], by rw [hdec_flag, hsf]⟩
    · exact ⟨by rw [hrest.1, hdec_raw, hsr], hrest.2⟩
  have hsecond := get_a_frame_loop_clear cv env2 dev dev.nbufs 0 (get_a_frame cv env dev w)
    hfirst.2
  exact ⟨hfirst.1, hfirst.2, hsecond.1, hsecond.2⟩

/-- Witness of `get_a_frame_raw_save_once`: a pool of two buffers, every `ioctl` returning
0, the file not opening, the escape key never read, `save_raw = 1` on entry. -/
theorem get_a_frame_raw_save_once_witness :
    (get_a_frame
      { cvtColor_bayer := fun _ _ _ _ => [], cvtColor_yuy2 := fun _ _ _ => [],
        pow := fun x _ => x, bgr2gray := fun px => px.g }
      { dqbuf_ret := fun _ => 0, qbuf_ret := fun _ => 0, frame := fun _ => [],
        fopen_ok := fun _ => false, fwrite_ok := fun _ => false, esc_pressed := fun _ => false }
      { width := 0, height := 0, imagesize := 0, nbufs := 2, buffers := some 2 }
      { flags := { save_bmp := 0, save_raw := 1, bayer_flag := 3, shift_flag := 3,
                   awb_flag := 0, abc_flag := 0, gamma_val := 1065353216 },
        image_count := 7, files := [], shown := [], status := Status.running }).raw_writes
    = [] ++ [FileWrite.raw (raw_file_name 7) 0 (v4l2_core_save_data_to_file false false)] :=
  (get_a_frame_raw_save_once
      { cvtColor_bayer := fun _ _ _ _ => [], cvtColor_yuy2 := fun _ _ _ => [],
        pow := fun x _ => x, bgr2gray := fun px => px.g }
      { dqbuf_ret := fun _ => 0, qbuf_ret := fun _ => 0, frame := fun _ => [],
        fopen_ok := fun _ => false, fwrite_ok := fun _ => false, esc_pressed := fun _ => false }
      { dqbuf_ret := fun _ => 0, qbuf_ret := fun _ => 0, frame := fun _ => [],
        fopen_ok := fun _ => false, fwrite_ok := fun _ => false, esc_pressed := fun _ => false }
      { width := 0, height := 0, imagesize := 0, nbufs := 2, buffers := some 2 }
      { flags := { save_bmp := 0, save_raw := 1, bayer_flag := 3, shift_flag := 3,
                   awb_flag := 0, abc_flag := 0, gamma_val := 1065353216 },
        image_count := 7, files := [], shown := [], status := Status.running }
      (by decide) (fun _ => le_refl 0) (fun _ => le_refl 0) (by decide)).1

/-! ## C5: the cut search -/

theorem mass_below_add_mass_above (hist : Nat → Nat) (M : Nat) (h : M + 1 ≤ hist_size) :
    mass_below hist (M + 1) + mass_above hist M = total_mass hist := by
  unfold mass_below mass_above total_mass
  exact Finset.sum_range_add_sum_Ico hist h

/-- A result of the left-cut loop is the first level from `m` on whose accumulated value
is not below the clip value. -/
theorem locate_left_cut_some (acc : Nat → ℚ) (clip : ℚ) :
    ∀ (k m m' : Nat), locate_left_cut acc clip k m = some m' →
      m ≤ m' ∧ m' < m + k ∧ clip ≤ acc m' ∧ ∀ j, m ≤ j → j < m' → acc j < clip := by
  intro k
  induction k with
  | zero =>
    intro m m' h
    simp [locate_left_cut] at h
  | succ k ih =>
    intro m m' h
    by_cases hlt : acc m < clip
    · rw [locate_left_cut, if_pos hlt] at h
      obtain ⟨h1, h2, h3, h4⟩ := ih (m + 1) m' h
      refine ⟨by omega, by omega, h3, ?_⟩
      intro j hj1 hj2
      by_cases hjm : j = m
      · rw [hjm]; exact hlt
      · exact h4 j (by omega) hj2
    · rw [locate_left_cut, if_neg hlt] at h
      have hm : m = m' := Option.some.inj h
      subst hm
      exact ⟨le_refl m, by omega, not_lt.mp hlt, fun j hj1 hj2 => by omega⟩

/-- A result of the right-cut loop is the last level below `n` whose accumulated value is
below the `float` difference `max - clip`. -/
theorem locate_right_cut_some (acc : Nat → ℚ) (max clip : ℚ) :
    ∀ (n M : Nat), locate_right_cut acc max clip n = some M →
      M < n ∧ acc M < to_float (max - clip) ∧
      ∀ j, M < j → j < n → to_float (max - clip) ≤ acc j := by
  intro n
  induction n with
  | zero =>
    intro M h
    simp [locate_right_cut] at h
  | succ n ih =>
    intro M h
    by_cases hge : acc n ≥ to_float (max - clip)
    · rw [locate_right_cut, if_pos hge] at h
      obtain ⟨h1, h2, h3⟩ := ih M h
      refine ⟨by omega, h2, ?_⟩
      intro j hj1 hj2
      by_cases hjn : j = n
      · rw [hjn]; exact hge
      · exact h3 j hj1 (by omega)
    · rw [locate_right_cut, if_neg hge] at h
      have hn : n = M := Option.some.inj h
      subst hn
      exact ⟨by omega, not_le.mp hge, fun j hj1 hj2 => by omega⟩

/-- What a result of the cut search means, in the `float` values the code compares:
`min_gray` is the first level whose accumulated value reaches the clip value, and
`max_gray` is the last level whose accumulated value is below `max - clip`, so the
accumulated value up to `max_gray` falls short of the maximum by more than the clip
allows for, while every level above `max_gray` is within it. -/
theorem cut_search_some (hist : Nat → Nat) (c : ℚ) (min_gray max_gray : Nat)
    (h : cut_search hist c = some (min_gray, max_gray)) :
    min_gray ≤ 255 ∧
    clip_absolute c (accumulator hist 255) ≤ accumulator hist min_gray ∧
    (∀ j, j < min_gray → accumulator hist j < clip_absolute c (accumulator hist 255)) ∧
    max_gray ≤ 255 ∧
    accumulator hist max_gray
      < to_float (accumulator hist 255 - clip_absolute c (accumulator hist 255)) ∧
    (∀ j, max_gray < j → j ≤ 255 →
      to_float (accumulator hist 255 - clip_absolute c (accumulator hist 255))
        ≤ accumulator hist j) := by
  simp only [cut_search, hist_size, Nat.add_one_sub_one] at h
  cases hl : locate_left_cut (accumulator hist)
      (clip_absolute c (accumulator hist 255)) 256 0 with
  | none => rw [hl] at h; simp at h
  | some m =>
    rw [hl] at h
    cases hr : locate_right_cut (accumulator hist) (accumulator hist 255)
        (clip_absolute c (accumulator hist 255)) 256 with
    | none => rw [hr] at h; simp at h
    | some M =>
      rw [hr] at h
      simp only [Option.some.injEq, Prod.mk.injEq] at h
      obtain ⟨hm, hM⟩ := h
      subst hm
      subst hM
      obtain ⟨_, l2, l3, l4⟩ := locate_left_cut_some _ _ 256 0 m hl
      obtain ⟨r1, r2, r3⟩ := locate_right_cut_some _ _ _ 256 M hr
      exact ⟨by omega, l3, fun j hj => l4 j (Nat.zero_le j) hj, by omega, r2,
        fun j hj1 hj2 => r3 j hj1 (by omega)⟩

/-- The result of the cut search from its parts. -/
theorem cut_search_eq (hist : Nat → Nat) (c max clip : ℚ) (min_gray max_gray : Nat)
    (hmax : accumulator hist 255 = max) (hclip : clip_absolute c max = clip)
    (hl : locate_left_cut (accumulator hist) clip 256 0 = some min_gray)
    (hr : locate_right_cut (accumulator hist) max clip 256 = some max_gray) :
    cut_search hist c = some (min_gray, max_gray) := by
  simp only [cut_search, hist_size, Nat.add_one_sub_one]
  rw [hmax, hclip, hl, hr]

theorem two_peak_mass_below (n : Nat) (h : n < 255) :
    mass_below two_peak_hist (n + 1) = 100 := by
  induction n with
  | zero => simp [mass_below, two_peak_hist]
  | succ n ih =>
    have hn := ih (by omega)
    unfold mass_below at hn ⊢
    rw [Finset.sum_range_succ, hn]
    have h2 : n + 1 ≠ 255 := by omega
    simp [two_peak_hist, h2]

theorem two_peak_total : total_mass two_peak_hist = 200 := by
  have h := two_peak_mass_below 254 (by omega)
  unfold mass_below at h
  unfold total_mass hist_size
  rw [Finset.sum_range_succ, h]
  simp [two_peak_hist]

theorem two_peak_accumulator (n : Nat) (h : n < 255) : accumulator two_peak_hist n = 100 := by
  have h100 : to_float (100 : ℚ) = 100 := by
    have := to_float_of_nat 100 100 (by norm_num) (by norm_num)
    simpa using this
  induction n with
  | zero => simpa [accumulator, hist_at, two_peak_hist] using h100
  | succ n ih =>
    have h2 : n + 1 ≠ 255 := by omega
    rw [accumulator, ih (by omega)]
    simpa [hist_at, two_peak_hist, h2, to_float_zero] using h100

theorem two_peak_accumulator_last : accumulator two_peak_hist 255 = 200 := by
  have h100 : to_float (100 : ℚ) = 100 := by
    have := to_float_of_nat 100 100 (by norm_num) (by norm_num)
    simpa using this
  have h200 : to_float (100 + 100 : ℚ) = 200 := by
    have := to_float_of_nat (100 + 100) 200 (by norm_num) (by norm_num)
    simpa using this
  rw [accumulator, two_peak_accumulator 254 (by omega)]
  simpa [hist_at, two_peak_hist, h100] using h200

/-- For the maximum 200 and the clip percentage 1 every step of lines 413-414 is exact:
the clip value is 1. -/
theorem clip_absolute_one_200 : clip_absolute 1 200 = 1 := by
  have h1 : to_double ((200 : ℚ) / 100) = 2 := by
    have := to_double_of_nat ((200 : ℚ) / 100) 2 (by norm_num) (by norm_num)
    simpa using this
  have h2 : to_double ((1 : ℚ) * 2) = 2 := by
    have := to_double_of_nat ((1 : ℚ) * 2) 2 (by norm_num) (by norm_num)
    simpa using this
  have h3 : to_float (2 : ℚ) = 2 := by
    have := to_float_of_nat 2 2 (by norm_num) (by norm_num)
    simpa using this
  have h4 : to_double ((2 : ℚ) / 2) = 1 := by
    have := to_double_of_nat ((2 : ℚ) / 2) 1 (by norm_num) (by norm_num)
    simpa using this
  have h5 : to_float (1 : ℚ) = 1 := by
    have := to_float_of_nat 1 1 (by norm_num) (by norm_num)
    simpa using this
  simp only [clip_absolute, h1, h2, h3, h4, h5]

/-- C5 (the code departs from the claim): for the 200-pixel histogram with 100 pixels at
level 0 and 100 at level 255 and the clip percentage 1, where every `float` operation is
exact (maximum 200, clip value 1, threshold 199), the search ends with `min_gray = 0` and
`max_gray = 254`.  The mass strictly below `min_gray` is 0, within the bound, but the mass
strictly above `max_gray` is 100, not at most 1 (half a percent of 200); the bound of the
claim holds one level higher, above 255. -/
theorem cut_search_right_mass_exceeds :
    cut_search two_peak_hist 1 = some (0, 254) ∧
    total_mass two_peak_hist = 200 ∧
    mass_below two_peak_hist 0 = 0 ∧
    mass_above two_peak_hist 254 = 100 ∧
    ¬ ((mass_above two_peak_hist 254 : ℚ) ≤ (1 : ℚ) / 2 / 100 * (total_mass two_peak_hist : ℚ)) ∧
    (mass_above two_peak_hist 255 : ℚ) ≤ (1 : ℚ) / 2 / 100 * (total_mass two_peak_hist : ℚ) := by
  have hacc0 : accumulator two_peak_hist 0 = 100 := two_peak_accumulator 0 (by omega)
  have hacc254 : accumulator two_peak_hist 254 = 100 := two_peak_accumulator 254 (by omega)
  have hacc255 := two_peak_accumulator_last
  have hthr : to_float ((200 : ℚ) - 1) = 199 := by
    have := to_float_of_nat ((200 : ℚ) - 1) 199 (by norm_num) (by norm_num)
    simpa using this
  have h254 : mass_above two_peak_hist 254 = 100 := by decide
  have h255 : mass_above two_peak_hist 255 = 0 := by decide
  refine ⟨?_, two_peak_total, by decide, h254, ?_, ?_⟩
  · have hl : locate_left_cut (accumulator two_peak_hist) 1 (255 + 1) 0 = some 0 := by
      rw [locate_left_cut, hacc0]; norm_num
    have hr : locate_right_cut (accumulator two_peak_hist) 200 1 (254 + 1 + 1) = some 254 := by
      rw [locate_right_cut, locate_right_cut, hacc255, hacc254, hthr]; norm_num
    norm_num at hl hr
    exact cut_search_eq two_peak_hist 1 200 1 0 254 hacc255 clip_absolute_one_200 hl hr
  · rw [two_peak_total, h254]; norm_num
  · rw [two_peak_total, h255]; norm_num

/-- Evaluation of a rounding: for `2 ^ e ≤ x < 2 ^ (e + 1)` in the normal range, the result
is `k` units in the last place when `k` is the integer within a half of the quotient. -/
theorem round_binary_eval (p : Nat) (emin : Int) (x : ℚ) (e k : Int) (hx : 0 < x)
    (h1 : (2 : ℚ) ^ e ≤ x) (h2 : x < (2 : ℚ) ^ (e + 1)) (he : emin ≤ e)
    (hk : |x / (2 : ℚ) ^ (e - (p : Int) + 1) - (k : ℚ)| < 1 / 2) :
    round_binary p emin x = (k : ℚ) * (2 : ℚ) ^ (e - (p : Int) + 1) := by
  have hlog : Int.log 2 x = e := by
    have ha := log_two_ge hx h1
    have hb := log_two_lt hx h2
    omega
  rw [round_binary_of_pos p emin hx]
  unfold round_magnitude
  dsimp only
  rw [hlog, max_eq_left he, cvRound_eq_of_close _ k hk]

/-- A value `k * 2 ^ j` with `0 < k ≤ 2 ^ p` is returned unchanged. -/
theorem round_binary_exact (p : Nat) (emin : Int) (hp : 1 ≤ p) (k : Nat) (hk0 : 0 < k)
    (hk : k ≤ 2 ^ p) (j : Int) (hj : emin - (p : Int) + 1 ≤ j) :
    round_binary p emin ((k : ℚ) * (2 : ℚ) ^ j) = (k : ℚ) * (2 : ℚ) ^ j := by
  have hpos : (0 : ℚ) < (k : ℚ) * (2 : ℚ) ^ j :=
    mul_pos (by exact_mod_cast hk0) (two_zpow_pos j)
  rw [round_binary_of_pos p emin hpos]
  exact round_magnitude_exact p emin hp k hk0 hk j hj

theorem three_level_accumulator (n : Nat) (h : n < 254) :
    accumulator three_level_hist n = 200000 := by
  have h0 : to_float (200000 : ℚ) = 200000 := by
    have := to_float_of_nat 200000 200000 (by norm_num) (by norm_num)
    simpa using this
  induction n with
  | zero => simpa [accumulator, hist_at, three_level_hist] using h0
  | succ n ih =>
    have h2 : n + 1 ≠ 254 := by omega
    have h3 : n + 1 ≠ 255 := by omega
    rw [accumulator, ih (by omega)]
    simpa [hist_at, three_level_hist, h2, h3, to_float_zero] using h0

theorem three_level_accumulator_254 : accumulator three_level_hist 254 = 238998 := by
  have h0 : to_float (38998 : ℚ) = 38998 := by
    have := to_float_of_nat 38998 38998 (by norm_num) (by norm_num)
    simpa using this
  have h1 : to_float (200000 + 38998 : ℚ) = 238998 := by
    have := to_float_of_nat (200000 + 38998) 238998 (by norm_num) (by norm_num)
    simpa using this
  rw [accumulator, three_level_accumulator 253 (by omega)]
  simpa [hist_at, three_level_hist, h0] using h1

theorem three_level_accumulator_255 : accumulator three_level_hist 255 = 240199 := by
  have h0 : to_float (1201 : ℚ) = 1201 := by
    have := to_float_of_nat 1201 1201 (by norm_num) (by norm_num)
    simpa using this
  have h1 : to_float (238998 + 1201 : ℚ) = 240199 := by
    have := to_float_of_nat (238998 + 1201) 240199 (by norm_num) (by norm_num)
    simpa using this
  rw [accumulator, three_level_accumulator_254]
  simpa [hist_at, three_level_hist, h0] using h1

/-- For the maximum 240199 and the clip percentage 1 the clip value kept in the `float` is
`9838551 / 8192 = 1200.9949951171875`, a little below the exact 1200.995. -/
theorem clip_absolute_one_240199 : clip_absolute 1 240199 = 9838551 / 8192 := by
  have ht1 := to_double_rel (x := (240199 : ℚ) / 100) (by norm_num)
  have ht1nn : (0 : ℚ) ≤ (240199 : ℚ) / 100 := by norm_num
  have ht2 : to_double (1 * to_double ((240199 : ℚ) / 100))
      = to_double ((240199 : ℚ) / 100) := by
    rw [one_mul, to_double_idem ht1nn]
  have hc1 : to_float (to_double ((240199 : ℚ) / 100)) = 9838551 / 4096 := by
    have := round_binary_eval 24 (-126) (to_double ((240199 : ℚ) / 100)) 11 9838551
      (by linarith [ht1.1]) (by norm_num; linarith [ht1.1]) (by norm_num; linarith [ht1.2])
      (by norm_num)
      (by
        have hz : (2 : ℚ) ^ ((11 : Int) - ((24 : Nat) : Int) + 1) = 1 / 4096 := by
          norm_num [zpow_neg]
        rw [hz, abs_lt]
        constructor
        · linarith [ht1.1]
        · linarith [ht1.2])
    have hz : (2 : ℚ) ^ ((11 : Int) - ((24 : Nat) : Int) + 1) = 1 / 4096 := by
      norm_num [zpow_neg]
    rw [hz] at this
    unfold to_float
    rw [this]
    norm_num
  have hz13 : (2 : ℚ) ^ (-13 : Int) = 1 / 8192 := by norm_num [zpow_neg]
  have ht3 : to_double ((9838551 : ℚ) / 4096 / 2) = 9838551 / 8192 := by
    have := round_binary_exact 53 (-1022) (by norm_num) 9838551 (by norm_num) (by norm_num)
      (-13) (by norm_num)
    rw [hz13] at this
    unfold to_double
    have he : (9838551 : ℚ) / 4096 / 2 = ((9838551 : Nat) : ℚ) * (1 / 8192) := by norm_num
    rw [he, this]
    norm_num
  have hc2 : to_float ((9838551 : ℚ) / 8192) = 9838551 / 8192 := by
    have := round_binary_exact 24 (-126) (by norm_num) 9838551 (by norm_num) (by norm_num)
      (-13) (by norm_num)
    rw [hz13] at this
    unfold to_float
    have he : (9838551 : ℚ) / 8192 = ((9838551 : Nat) : ℚ) * (1 / 8192) := by norm_num
    rw [he, this]
  simp only [clip_absolute, ht2, hc1, ht3, hc2]

/-- The `float` difference `240199 - 1200.9949951171875` is 238998: the exact
238998.0050048828125 lies between two `float` values 1/64 apart and rounds down. -/
theorem threshold_240199 : to_float ((240199 : ℚ) - 9838551 / 8192) = 238998 := by
  have hz : (2 : ℚ) ^ ((17 : Int) - ((24 : Nat) : Int) + 1) = 1 / 64 := by
    norm_num [zpow_neg]
  have := round_binary_eval 24 (-126) ((240199 : ℚ) - 9838551 / 8192) 17 15295872
    (by norm_num) (by norm_num) (by norm_num) (by norm_num)
    (by rw [hz, abs_lt]; constructor <;> norm_num)
  rw [hz] at this
  unfold to_float
  rw [this]
  norm_num

/-- The rounding of the threshold decides the right cut: for the histogram with 200000
pixels at level 0, 38998 at level 254 and 1201 at level 255 and the clip percentage 1, the
threshold `max - clip` is the `float` 238998, `accumulator[254] = 238998` is not below it,
and the search ends with `max_gray = 253`; the mass strictly above level 254 is 1201, more
than half a percent of the total 240199. -/
theorem cut_search_threshold_rounded :
    cut_search three_level_hist 1 = some (0, 253) ∧
    mass_above three_level_hist 254 = 1201 ∧
    ¬ ((1201 : ℚ) ≤ (1 : ℚ) / 2 / 100 * 240199) := by
  have hacc0 : accumulator three_level_hist 0 = 200000 := three_level_accumulator 0 (by omega)
  have hacc253 : accumulator three_level_hist 253 = 200000 :=
    three_level_accumulator 253 (by omega)
  have hacc254 := three_level_accumulator_254
  have hacc255 := three_level_accumulator_255
  refine ⟨?_, by decide, by norm_num⟩
  have hl : locate_left_cut (accumulator three_level_hist) (9838551 / 8192) (255 + 1) 0
      = some 0 := by
    rw [locate_left_cut, hacc0]; norm_num
  have hr : locate_right_cut (accumulator three_level_hist) 240199 (9838551 / 8192)
      (253 + 1 + 1 + 1) = some 253 := by
    rw [locate_right_cut, locate_right_cut, locate_right_cut, hacc255, hacc254, hacc253,
      threshold_240199]
    norm_num
  norm_num at hl hr
  exact cut_search_eq three_level_hist 1 240199 (9838551 / 8192) 0 253 hacc255
    clip_absolute_one_240199 hl hr

/-! ## C7: brightness and contrast on a full-range image -/

theorem saturate_uchar_val (v : UChar) : saturate_uchar (v.val : Int) = v := by
  have h1 : ¬ ((v.val : Int) < 0) := by omega
  have h2 : ¬ (255 < (v.val : Int)) := by have := v.isLt; omega
  unfold saturate_uchar
  rw [dif_neg h1, dif_neg h2]
  apply Fin.ext
  simp

theorem cvRound_natCast (n : Nat) : cvRound (n : ℚ) = (n : Int) := by
  simp [cvRound, cvRound_div]

theorem foldl_min_eq_zero :
    ∀ (vs : List UChar) (v : UChar), (v = 0 ∨ (0 : UChar) ∈ vs) → vs.foldl min v = 0 := by
  intro vs
  induction vs with
  | nil =>
    intro v h
    rcases h with h | h
    · simpa using h
    · simp at h
  | cons x xs ih =>
    intro v h
    rw [List.foldl_cons]
    apply ih
    rcases h with h | h
    · left; rw [h]; exact min_eq_left (Fin.zero_le x)
    · rcases List.mem_cons.mp h with h | h
      · left; rw [← h]; exact min_eq_right (Fin.zero_le v)
      · right; exact h

theorem uchar_le_255 (x : UChar) : x ≤ (255 : UChar) := by
  rw [Fin.le_def]
  have := x.isLt
  show x.val ≤ 255
  omega

theorem foldl_max_eq_255 :
    ∀ (vs : List UChar) (v : UChar), (v = 255 ∨ (255 : UChar) ∈ vs) → vs.foldl max v = 255 := by
  intro vs
  induction vs with
  | nil =>
    intro v h
    rcases h with h | h
    · simpa using h
    · simp at h
  | cons x xs ih =>
    intro v h
    rw [List.foldl_cons]
    apply ih
    rcases h with h | h
    · left; rw [h]; exact max_eq_left (uchar_le_255 x)
    · rcases List.mem_cons.mp h with h | h
      · left; rw [← h]; exact max_eq_right (uchar_le_255 v)
      · right; exact h

/-- A plane that contains the levels 0 and 255 has `minMaxLoc` equal to (0, 255). -/
theorem minMaxLoc_full_range (gray : Plane) (hmin : (0 : UChar) ∈ gray)
    (hmax : (255 : UChar) ∈ gray) : minMaxLoc gray = some (0, 255) := by
  cases gray with
  | nil => simp at hmin
  | cons v vs =>
    have h1 : vs.foldl min v = 0 := by
      apply foldl_min_eq_zero
      rcases List.mem_cons.mp hmin with h | h
      · exact Or.inl h.symm
      · exact Or.inr h
    have h2 : vs.foldl max v = 255 := by
      apply foldl_max_eq_255
      rcases List.mem_cons.mp hmax with h | h
      · exact Or.inl h.symm
      · exact Or.inr h
    simp only [minMaxLoc, h1, h2]
    rfl

theorem convertTo_one_zero (img : Image) : convertTo img 1 0 = img := by
  unfold convertTo
  conv_rhs => rw [← List.map_id img]
  apply List.map_congr_left
  intro px _
  simp only [one_mul, add_zero, cvRound_natCast, saturate_uchar_val, id]

/-- C7: for every grey conversion and every image whose grey plane contains the levels 0
and 255 (so its minimum is 0 and its maximum 255), `apply_auto_brightness_and_contrast`
with clip percentage 0 takes the range (0, 255), computes `alpha = 1` and `beta = 0`, and
returns the input image unchanged. -/
theorem auto_brightness_full_range_noop (bgr2gray : Pixel → UChar) (img : Image)
    (hmin : ∃ px ∈ img, bgr2gray px = 0) (hmax : ∃ px ∈ img, bgr2gray px = 255) :
    gray_range (img.map bgr2gray) 0 = some (0, 255) ∧
    alpha_beta 0 255 = some (1, 0) ∧
    apply_auto_brightness_and_contrast bgr2gray img 0 = some img := by
  have hrange : gray_range (img.map bgr2gray) 0 = some (0, 255) := by
    obtain ⟨p0, hp0, hg0⟩ := hmin
    obtain ⟨p1, hp1, hg1⟩ := hmax
    simp only [gray_range, if_true]
    exact minMaxLoc_full_range _ (List.mem_map.mpr ⟨p0, hp0, hg0⟩)
      (List.mem_map.mpr ⟨p1, hp1, hg1⟩)
  have hab : alpha_beta 0 255 = some (1, 0) := by
    norm_num [alpha_beta, hist_size]
  refine ⟨hrange, hab, ?_⟩
  simp only [apply_auto_brightness_and_contrast, hrange, hab, convertTo_one_zero]

/-- Witness of `auto_brightness_full_range_noop`: a black, a white and a coloured pixel,
the grey value being the green channel. -/
theorem auto_brightness_full_range_noop_witness :
    apply_auto_brightness_and_contrast (fun px => px.g)
      [{ b := 0, g := 0, r := 0 }, { b := 255, g := 255, r := 255 },
       { b := 3, g := 40, r := 250 }] 0
    = some [{ b := 0, g := 0, r := 0 }, { b := 255, g := 255, r := 255 },
       { b := 3, g := 40, r := 250 }] :=
  (auto_brightness_full_range_noop (fun px => px.g)
    [{ b := 0, g := 0, r := 0 }, { b := 255, g := 255, r := 255 },
     { b := 3, g := 40, r := 250 }]
    ⟨{ b := 0, g := 0, r := 0 }, by simp, rfl⟩
    ⟨{ b := 255, g := 255, r := 255 }, by simp, rfl⟩).2.2

/-! ## C11: the name of a raw dump -/

/-- For a sequence number from 0 to 99 the sixteen-byte buffer holds the whole name. -/
theorem raw_file_name_two_digits (n : Int) (h0 : 0 ≤ n) (h99 : n ≤ 99) :
    raw_file_name n = raw_file_name_spec n := by
  interval_cases n <;> decide

/-- C11 (the code departs from the claim): with `image_count = 100` the name `snprintf`
leaves in the 16-byte buffer is `captures_100.ra`, fifteen characters, not
`captures_100.raw`; a cycle of `get_a_frame` entered with `save_raw` set and
`image_count = 100` logs its dump under that cut name; and the sequence numbers 1000000
and 1000001 get the same name. -/
theorem raw_file_name_truncated :
    raw_file_name 100 = "captures_100.ra".toList ∧
    raw_file_name_spec 100 = "captures_100.raw".toList ∧
    raw_file_name 100 ≠ raw_file_name_spec 100 ∧
    (get_a_frame
      { cvtColor_bayer := fun _ _ _ _ => [], cvtColor_yuy2 := fun _ _ _ => [],
        pow := fun x _ => x, bgr2gray := fun px => px.g }
      { dqbuf_ret := fun _ => 0, qbuf_ret := fun _ => 0, frame := fun _ => [],
        fopen_ok := fun _ => true, fwrite_ok := fun _ => true, esc_pressed := fun _ => false }
      { width := 0, height := 0, imagesize := 0, nbufs := 1, buffers := some 1 }
      { flags := { save_bmp := 0, save_raw := 1, bayer_flag := 3, shift_flag := 3,
                   awb_flag := 0, abc_flag := 0, gamma_val := 1065353216 },
        image_count := 100, files := [], shown := [], status := Status.running }).files
      = [FileWrite.raw "captures_100.ra".toList 0 0] ∧
    raw_file_name 1000000 = raw_file_name 1000001 := by
  decide

/-! ## C12: samples within the declared bit depth -/

/-- C12: for shift 2 and `64 < v < 1024` (RAW10), and for shift 4 and `64 < v < 4096`
(RAW12), `(v - 64) >> shift` is at most 255, the stored byte is exactly `(v - 64) >> shift`,
and the stored byte does not decrease as the sample grows within that range. -/
theorem unshift_sample_within_depth (shift v : Nat)
    (hdepth : (shift = 2 ∧ v < 1024) ∨ (shift = 4 ∧ v < 4096)) (hv : 64 < v) :
    (v - 64) >>> shift ≤ 255 ∧
    (unshift_sample v shift).val = (v - 64) >>> shift ∧
    ∀ v', 64 < v' → v' ≤ v →
      (unshift_sample v' shift).val ≤ (unshift_sample v shift).val := by
  have hval : ∀ u, 64 < u → u ≤ v →
      (u - 64) >>> shift ≤ 255 ∧ (unshift_sample u shift).val = (u - 64) >>> shift := by
    intro u hu huv
    have hle : (u - 64) >>> shift ≤ 255 := by
      rw [Nat.shiftRight_eq_div_pow]
      rcases hdepth with ⟨hs, hlt⟩ | ⟨hs, hlt⟩
      · subst hs
        have : (2 : Nat) ^ 2 = 4 := by norm_num
        rw [this]; omega
      · subst hs
        have : (2 : Nat) ^ 4 = 16 := by norm_num
        rw [this]; omega
    refine ⟨hle, ?_⟩
    have hu' : u > 64 := hu
    simp only [unshift_sample, hu', if_true, to_uchar_val]
    exact Nat.mod_eq_of_lt (by omega)
  obtain ⟨h1, h2⟩ := hval v hv (le_refl v)
  refine ⟨h1, h2, ?_⟩
  intro v' hv' hle
  rw [(hval v' hv' hle).2, h2]
  simp only [Nat.shiftRight_eq_div_pow]
  exact Nat.div_le_div_right (by omega)

/-- Witness of `unshift_sample_within_depth`: the largest RAW10 sample, 1023 with shift 2,
is stored as 239. -/
theorem unshift_sample_within_depth_witness :
    (1023 - 64) >>> 2 ≤ 255 ∧
    (unshift_sample 1023 2).val = (1023 - 64) >>> 2 ∧
    ∀ v', 64 < v' → v' ≤ 1023 →
      (unshift_sample v' 2).val ≤ (unshift_sample 1023 2).val :=
  unshift_sample_within_depth 2 1023 (Or.inl ⟨rfl, by decide⟩) (by decide)

/-! ## C13: the cut search on uniform images -/

/-- The right-cut loop has no result exactly when it reads index -1. -/
theorem locate_right_cut_none_iff (acc : Nat → ℚ) (max clip : ℚ) :
    ∀ n, locate_right_cut acc max clip n = none ↔
      (-1 : Int) ∈ locate_right_cut_reads acc max clip n := by
  intro n
  induction n with
  | zero => simp [locate_right_cut, locate_right_cut_reads]
  | succ n ih =>
    have hne : ¬ ((-1 : Int) = ((n : Nat) : Int)) := by omega
    by_cases h : acc n ≥ to_float (max - clip)
    · simp [locate_right_cut, locate_right_cut_reads, h, ih, hne]
    · simp [locate_right_cut, locate_right_cut_reads, h, hne]

/-- The left-cut loop has no result exactly when it reads index 256, for a start at
`min_gray` with `256 - min_gray` entries left. -/
theorem locate_left_cut_none_iff (acc : Nat → ℚ) (clip : ℚ) :
    ∀ k m, m + k = 256 → (locate_left_cut acc clip k m = none ↔
      (256 : Int) ∈ locate_left_cut_reads acc clip k m) := by
  intro k
  induction k with
  | zero =>
    intro m hm
    have : m = 256 := by omega
    simp [locate_left_cut, locate_left_cut_reads, this]
  | succ k ih =>
    intro m hm
    have hne : ¬ ((256 : Int) = ((m : Nat) : Int)) := by omega
    by_cases h : acc m < clip
    · simp [locate_left_cut, locate_left_cut_reads, h, ih (m + 1) (by omega), hne]
    · simp [locate_left_cut, locate_left_cut_reads, h, hne]

theorem uniform_accumulator (g n : Nat) :
    ∀ i, accumulator (uniform_hist g n) i = if i < g then 0 else to_float (n : ℚ) := by
  have hidem : to_float (to_float (n : ℚ)) = to_float (n : ℚ) := to_float_idem (Nat.cast_nonneg n)
  intro i
  induction i with
  | zero =>
    by_cases hg : g = 0
    · simp [accumulator, hist_at, uniform_hist, hg]
    · have h1 : 0 < g := Nat.pos_of_ne_zero hg
      have h2 : ¬ (0 = g) := fun h => hg h.symm
      simp [accumulator, hist_at, uniform_hist, h1, h2, to_float_zero]
  | succ i ih =>
    rw [accumulator, ih]
    by_cases h1 : i + 1 < g
    · have h2 : i < g := by omega
      have h3 : ¬ (i + 1 = g) := by omega
      simp [hist_at, uniform_hist, h1, h2, h3, to_float_zero]
    · by_cases h2 : i + 1 = g
      · have h3 : i < g := by omega
        simp [hist_at, uniform_hist, h1, h2, h3, hidem]
      · have h3 : ¬ (i < g) := by omega
        simp [hist_at, uniform_hist, h1, h2, h3, to_float_zero, hidem]

/-- On the histogram of a uniform image of level `g` the left-cut loop stops at `g`. -/
theorem uniform_left_cut (g n : Nat) (clip : ℚ) (h0 : 0 < clip)
    (hn : clip ≤ to_float (n : ℚ)) :
    ∀ k m, m ≤ g → g < m + k →
      locate_left_cut (accumulator (uniform_hist g n)) clip k m = some g := by
  intro k
  induction k with
  | zero => intro m h1 h2; omega
  | succ k ih =>
    intro m h1 h2
    by_cases hm : m < g
    · have hacc : accumulator (uniform_hist g n) m < clip := by
        rw [uniform_accumulator]; simpa [hm] using h0
      simp [locate_left_cut, hacc, ih (m + 1) (by omega) (by omega)]
    · have hmg : m = g := by omega
      have hacc : ¬ accumulator (uniform_hist g n) m < clip := by
        rw [uniform_accumulator]; simpa [hm] using hn
      rw [locate_left_cut, if_neg hacc, hmg]

/-- On the histogram of a uniform image of level `g` the right-cut loop stops at `g - 1`,
and leaves the vector when `g = 0`. -/
theorem uniform_right_cut (g n : Nat) (clip : ℚ)
    (h0 : 0 < to_float (to_float (n : ℚ) - clip))
    (hn : to_float (to_float (n : ℚ) - clip) ≤ to_float (n : ℚ)) :
    ∀ k, g ≤ k →
      locate_right_cut (accumulator (uniform_hist g n)) (to_float (n : ℚ)) clip k
        = if g = 0 then none else some (g - 1) := by
  intro k
  induction k with
  | zero =>
    intro h
    have : g = 0 := by omega
    simp [locate_right_cut, this]
  | succ k ih =>
    intro h
    by_cases hk : g ≤ k
    · have hacc : accumulator (uniform_hist g n) k ≥ to_float (to_float (n : ℚ) - clip) := by
        rw [uniform_accumulator]
        have : ¬ k < g := by omega
        simp only [this, if_false]
        exact hn
      rw [locate_right_cut, if_pos hacc]
      exact ih hk
    · have hg : g = k + 1 := by omega
      have hacc : ¬ accumulator (uniform_hist g n) k ≥ to_float (to_float (n : ℚ) - clip) := by
        rw [uniform_accumulator]
        have : k < g := by omega
        simp only [this, if_true]
        exact not_le.mpr h0
      rw [locate_right_cut, if_neg hacc]
      simp [hg]

/-- For a count `n ≥ 1` and clip percentage 1 the clip value computed from `max = (float) n`
is positive and not above `max`, and the threshold `max - clip` is positive and not above
`max`. -/
theorem uniform_clip_bounds (n : Nat) (hn : 0 < n) :
    0 < clip_absolute 1 (to_float (n : ℚ)) ∧
    clip_absolute 1 (to_float (n : ℚ)) ≤ to_float (n : ℚ) ∧
    0 < to_float (to_float (n : ℚ) - clip_absolute 1 (to_float (n : ℚ))) ∧
    to_float (to_float (n : ℚ) - clip_absolute 1 (to_float (n : ℚ))) ≤ to_float (n : ℚ) := by
  have hF1 : (1 : ℚ) ≤ to_float (n : ℚ) := by
    have h1 : (1 : ℚ) ≤ (n : ℚ) := by exact_mod_cast hn
    have := to_float_mono h1
    rwa [to_float_of_nat 1 1 (by norm_num) (by norm_num), Nat.cast_one] at this
  have ht1 := to_double_rel (x := to_float (n : ℚ) / 100) (by linarith)
  have ht1pos : 0 ≤ to_float (n : ℚ) / 100 := by linarith
  have ht2 : to_double (1 * to_double (to_float (n : ℚ) / 100))
      = to_double (to_float (n : ℚ) / 100) := by
    rw [one_mul, to_double_idem ht1pos]
  have hc1 := to_float_rel (x := to_double (to_float (n : ℚ) / 100)) (by linarith [ht1.1])
  have ht3 := to_double_rel (x := to_float (to_double (to_float (n : ℚ) / 100)) / 2)
    (by linarith [ht1.1, hc1.1])
  have hc2 := to_float_rel
    (x := to_double (to_float (to_double (to_float (n : ℚ) / 100)) / 2))
    (by linarith [ht1.1, hc1.1, ht3.1])
  have hclip : clip_absolute 1 (to_float (n : ℚ))
      = to_float (to_double (to_float (to_double (to_float (n : ℚ) / 100)) / 2)) := by
    simp only [clip_absolute, ht2]
  rw [hclip]
  have hlow : to_float (n : ℚ) / 400
      ≤ to_float (to_double (to_float (to_double (to_float (n : ℚ) / 100)) / 2)) := by
    linarith [ht1.1, hc1.1, ht3.1, hc2.1]
  have hupp : to_float (to_double (to_float (to_double (to_float (n : ℚ) / 100)) / 2))
      ≤ to_float (n : ℚ) / 100 := by
    linarith [ht1.2, hc1.2, ht3.2, hc2.2]
  have hthr := to_float_rel
    (x := to_float (n : ℚ)
      - to_float (to_double (to_float (to_double (to_float (n : ℚ) / 100)) / 2)))
    (by linarith)
  refine ⟨by linarith, by linarith, by linarith [hthr.1], ?_⟩
  have hle : to_float (n : ℚ)
      - to_float (to_double (to_float (to_double (to_float (n : ℚ) / 100)) / 2))
      ≤ to_float (n : ℚ) := by linarith
  have := to_float_mono hle
  rwa [to_float_idem (Nat.cast_nonneg n)] at this

/-- For a uniform image of `n > 0` pixels of grey level `g ≤ 255` and clip percentage 1 the
cut search has no result when `g = 0` and ends with `min_gray = g`, `max_gray = g - 1`
otherwise. -/
theorem cut_search_uniform (g n : Nat) (hg : g ≤ 255) (hn : 0 < n) :
    cut_search (uniform_hist g n) 1 = if g = 0 then none else some (g, g - 1) := by
  have hT : accumulator (uniform_hist g n) 255 = to_float (n : ℚ) := by
    rw [uniform_accumulator]
    have : ¬ 255 < g := by omega
    simp [this]
  obtain ⟨hc0, hc1, ht0, ht1⟩ := uniform_clip_bounds n hn
  have hl := uniform_left_cut g n (clip_absolute 1 (to_float (n : ℚ))) hc0 hc1 256 0
    (by omega) (by omega)
  have hr := uniform_right_cut g n (clip_absolute 1 (to_float (n : ℚ))) ht0 ht1 256 (by omega)
  simp only [cut_search, hist_size, Nat.add_one_sub_one, hT]
  rw [hl, hr]
  by_cases h : g = 0 <;> simp [h]

theorem calcHist_uniform (gray : Plane) (g : UChar) (h : ∀ v ∈ gray, v = g) :
    calcHist gray = uniform_hist g.val gray.length := by
  funext i
  unfold calcHist uniform_hist
  by_cases hi : i = g.val
  · rw [if_pos hi]
    apply List.countP_eq_length.mpr
    intro v hv
    simp [h v hv, hi]
  · rw [if_neg hi]
    apply List.countP_eq_zero.mpr
    intro v hv
    simp only [decide_eq_true_eq]
    rw [h v hv]
    exact fun hc => hi hc.symm

theorem alpha_beta_crossed (g : Nat) (hg : g ≠ 0) :
    alpha_beta g (g - 1) = some (-255, 255 * (g : ℚ)) := by
  obtain ⟨k, rfl⟩ : ∃ k, g = k + 1 := ⟨g - 1, by omega⟩
  have hr : ((k + 1 - 1 : Nat) : ℚ) - ((k + 1 : Nat) : ℚ) = -1 := by
    simp
  simp only [alpha_beta, hr, hist_size]
  norm_num
  ring

/-- C13 (the code departs from the claim): for every non-empty image whose pixels all have
the same grey level `g`, with the clip percentage 1 of the pipeline: when `g = 0` (an
all-black image) the right-cut loop reads `accumulator` at index -1 and the search, hence
the whole stage, has no defined result; when `g > 0` the search ends with `min_gray = g`
and `max_gray = g - 1`, so `max_gray < min_gray`, the input range is -1 and
`alpha = -255`, a negative gain. -/
theorem auto_brightness_uniform_image (bgr2gray : Pixel → UChar) (img : Image) (g : UChar)
    (hne : img ≠ []) (hu : ∀ px ∈ img, bgr2gray px = g) :
    (g = 0 →
      gray_range (img.map bgr2gray) 1 = none ∧
      (-1 : Int) ∈ locate_right_cut_reads (accumulator (calcHist (img.map bgr2gray)))
        (accumulator (calcHist (img.map bgr2gray)) (hist_size - 1))
        (clip_absolute 1 (accumulator (calcHist (img.map bgr2gray)) (hist_size - 1)))
        hist_size ∧
      apply_auto_brightness_and_contrast bgr2gray img 1 = none) ∧
    (g ≠ 0 →
      gray_range (img.map bgr2gray) 1 = some (g.val, g.val - 1) ∧
      alpha_beta g.val (g.val - 1) = some (-255, 255 * (g.val : ℚ))) := by
  have hlen : 0 < (img.map bgr2gray).length := by
    rw [List.length_map]
    exact List.length_pos.mpr hne
  have hhist : calcHist (img.map bgr2gray)
      = uniform_hist g.val (img.map bgr2gray).length := by
    apply calcHist_uniform
    intro v hv
    obtain ⟨px, hpx, rfl⟩ := List.mem_map.mp hv
    exact hu px hpx
  have hg255 : g.val ≤ 255 := by have := g.isLt; omega
  have hsearch := cut_search_uniform g.val (img.map bgr2gray).length hg255 hlen
  have hrange : gray_range (img.map bgr2gray) 1
      = if g.val = 0 then none else some (g.val, g.val - 1) := by
    rw [← hsearch, ← hhist]
    simp [gray_range]
  constructor
  · intro hg
    have hg0 : g.val = 0 := by rw [hg]; rfl
    have hnone : gray_range (img.map bgr2gray) 1 = none := by rw [hrange, if_pos hg0]
    refine ⟨hnone, ?_, ?_⟩
    · rw [← locate_right_cut_none_iff, hhist, hg0]
      have hT : accumulator (uniform_hist 0 (img.map bgr2gray).length) (hist_size - 1)
          = to_float ((img.map bgr2gray).length : ℚ) := by
        rw [uniform_accumulator]; simp
      rw [hT]
      obtain ⟨_, _, ht0, ht1⟩ := uniform_clip_bounds (img.map bgr2gray).length hlen
      have := uniform_right_cut 0 (img.map bgr2gray).length
        (clip_absolute 1 (to_float ((img.map bgr2gray).length : ℚ))) ht0 ht1 hist_size
        (Nat.zero_le _)
      simpa using this
    · simp only [apply_auto_brightness_and_contrast, hnone]
  · intro hg
    have hg0 : g.val ≠ 0 := fun h => hg (Fin.ext h)
    exact ⟨by rw [hrange, if_neg hg0], alpha_beta_crossed g.val hg0⟩

/-- Witness of `auto_brightness_uniform_image`: the one-pixel black image, the grey value
being the green channel, for which the stage has no defined result. -/
theorem auto_brightness_uniform_image_witness :
    apply_auto_brightness_and_contrast (fun px => px.g) [{ b := 0, g := 0, r := 0 }] 1 = none :=
  ((auto_brightness_uniform_image (fun px => px.g) [{ b := 0, g := 0, r := 0 }] 0
    (by simp) (by simp)).1 rfl).2.2

/-! ## C14: the buffer array and the indices written -/

/-- Every buffer entry the mapping loop writes has an index below the loop bound. -/
theorem map_buffers_write_index (env : AllocEnv) :
    ∀ (k i : Nat) (ev : List AllocEvent),
      (∀ e ∈ ev, ∀ j, e.write_index = some j → j < i + k) →
      ∀ e ∈ (map_buffers env k i ev).2, ∀ j, e.write_index = some j → j < i + k := by
  intro k
  induction k with
  | zero =>
    intro i ev h
    exact h
  | succ k ih =>
    intro i ev h
    have hA : ∀ e ∈ ev ++ [AllocEvent.query i],
        ∀ j, e.write_index = some j → j < i + (k + 1) := by
      intro e he j hj
      rcases List.mem_append.mp he with he | he
      · exact h e he j hj
      · rw [List.mem_singleton.mp he] at hj
        simp [AllocEvent.write_index] at hj
    have hB : ∀ e ∈ ev ++ [AllocEvent.query i] ++
        [AllocEvent.write_length i (env.querybuf_length i)] ++
        [AllocEvent.map i (env.querybuf_length i) (env.querybuf_offset i),
          AllocEvent.write_start i (env.mmap_result i)],
        ∀ j, e.write_index = some j → j < i + (k + 1) := by
      intro e he j hj
      rcases List.mem_append.mp he with he | he
      · rcases List.mem_append.mp he with he | he
        · exact hA e he j hj
        · rw [List.mem_singleton.mp he] at hj
          simp only [AllocEvent.write_index, Option.some.injEq] at hj
          omega
      · simp only [List.mem_cons, List.mem_singleton, List.mem_nil_iff, or_false] at he
        rcases he with he | he
        · rw [he] at hj
          simp [AllocEvent.write_index] at hj
        · rw [he] at hj
          simp only [AllocEvent.write_index, Option.some.injEq] at hj
          omega
    have hC : ∀ e ∈ ev ++ [AllocEvent.query i] ++
        [AllocEvent.write_length i (env.querybuf_length i)] ++
        [AllocEvent.map i (env.querybuf_length i) (env.querybuf_offset i),
          AllocEvent.write_start i (env.mmap_result i)] ++ [AllocEvent.queue i],
        ∀ j, e.write_index = some j → j < i + (k + 1) := by
      intro e he j hj
      rcases List.mem_append.mp he with he | he
      · exact hB e he j hj
      · rw [List.mem_singleton.mp he] at hj
        simp [AllocEvent.write_index] at hj
    by_cases h1 : env.querybuf_ret i < 0
    · simp only [map_buffers, h1, if_true]
      exact hA
    · cases hm : env.mmap_result i with
      | none =>
        simp only [hm] at hB
        simp only [map_buffers, h1, if_false, hm]
        exact hB
      | some a =>
        simp only [hm] at hC
        by_cases h2 : env.qbuf_ret i < 0
        · simp only [map_buffers, h1, if_false, hm, h2, if_true]
          exact hC
        · simp only [map_buffers, h1, if_false, hm, h2]
          intro e he j hj
          have := ih (i + 1) _ (fun e he j hj => by
            have := hC e he j hj
            omega) e he j hj
          omega

/-- Every buffer entry `video_alloc_buffers` writes has an index below the requested
count stored in `dev->nbufs`; it is below the number of entries allocated whenever the
driver grants at least the requested count. -/
theorem video_alloc_buffers_write_index (env : AllocEnv) (dev : Device) (nbufs : Int) :
    ∀ e ∈ (video_alloc_buffers env dev nbufs).2.2, ∀ j, e.write_index = some j →
      j < (video_alloc_buffers env dev nbufs).2.1.nbufs ∧
      ((video_alloc_buffers env dev nbufs).2.1.nbufs ≤ env.reqbufs_count →
        j < env.reqbufs_count) := by
  have hn : (video_alloc_buffers env dev nbufs).2.1.nbufs = (nbufs % 4294967296).toNat := by
    unfold video_alloc_buffers
    dsimp only
    split_ifs
    · rfl
    · rfl
    · split <;> rfl
  have hw : ∀ e ∈ (video_alloc_buffers env dev nbufs).2.2, ∀ j, e.write_index = some j →
      j < (nbufs % 4294967296).toNat := by
    have hmb := map_buffers_write_index env (nbufs % 4294967296).toNat 0
      ([AllocEvent.request (nbufs % 4294967296).toNat] ++
        [AllocEvent.malloc env.reqbufs_count])
      (by
        intro e he j hj
        simp only [List.mem_append, List.mem_singleton] at he
        rcases he with he | he <;> rw [he] at hj <;> simp [AllocEvent.write_index] at hj)
    unfold video_alloc_buffers
    dsimp only
    split_ifs
    · intro e he j hj
      simp only [List.mem_singleton] at he
      rw [he] at hj; simp [AllocEvent.write_index] at hj
    · intro e he j hj
      simp only [List.mem_append, List.mem_singleton] at he
      rcases he with he | he <;> rw [he] at hj <;> simp [AllocEvent.write_index] at hj
    · split
      · rename_i r ev heq
        intro e he j hj
        have := hmb e (by rw [heq]; exact he) j hj
        omega
      · rename_i ev heq
        intro e he j hj
        have := hmb e (by rw [heq]; exact he) j hj
        omega
  intro e he j hj
  have := hw e he j hj
  rw [hn]
  exact ⟨this, fun hle => by omega⟩

/-- C14 (the code departs from the claim): (1) four buffers are requested, the driver
grants two and rejects the query of index 2: the array has two entries, the function
returns -1 and the device records the count 4; (2) one buffer is requested and the driver
grants two: the function returns 0 with an array of two entries and the recorded count 1;
(3) three buffers are requested, the driver grants two and answers every query: the loop
runs to the requested count and writes `buffers[2].length` and `buffers[2].start`, outside
the two allocated entries. -/
theorem video_alloc_buffers_count_mismatch :
    video_alloc_buffers
      { reqbufs_ret := 0, reqbufs_count := 2, malloc_ok := true,
        querybuf_ret := fun i => if i < 2 then 0 else -1, querybuf_length := fun _ => 4096,
        querybuf_offset := fun i => 4096 * i, mmap_result := fun i => some (65536 + 4096 * i),
        qbuf_ret := fun _ => 0 }
      { width := 640, height := 480, imagesize := 614400, nbufs := 0, buffers := none } 4
    = (-1,
       { width := 640, height := 480, imagesize := 614400, nbufs := 4, buffers := none },
       [AllocEvent.request 4, AllocEvent.malloc 2,
        AllocEvent.query 0, AllocEvent.write_length 0 4096, AllocEvent.map 0 4096 0,
        AllocEvent.write_start 0 (some 65536), AllocEvent.queue 0,
        AllocEvent.query 1, AllocEvent.write_length 1 4096, AllocEvent.map 1 4096 4096,
        AllocEvent.write_start 1 (some 69632), AllocEvent.queue 1,
        AllocEvent.query 2]) ∧
    video_alloc_buffers
      { reqbufs_ret := 0, reqbufs_count := 2, malloc_ok := true,
        querybuf_ret := fun _ => 0, querybuf_length := fun _ => 4096,
        querybuf_offset := fun i => 4096 * i, mmap_result := fun i => some (65536 + 4096 * i),
        qbuf_ret := fun _ => 0 }
      { width := 640, height := 480, imagesize := 614400, nbufs := 0, buffers := none } 1
    = (0,
       { width := 640, height := 480, imagesize := 614400, nbufs := 1, buffers := some 2 },
       [AllocEvent.request 1, AllocEvent.malloc 2,
        AllocEvent.query 0, AllocEvent.write_length 0 4096, AllocEvent.map 0 4096 0,
        AllocEvent.write_start 0 (some 65536), AllocEvent.queue 0]) ∧
    (AllocEvent.malloc 2 ∈ (video_alloc_buffers
      { reqbufs_ret := 0, reqbufs_count := 2, malloc_ok := true,
        querybuf_ret := fun _ => 0, querybuf_length := fun _ => 4096,
        querybuf_offset := fun i => 4096 * i, mmap_result := fun i => some (65536 + 4096 * i),
        qbuf_ret := fun _ => 0 }
      { width := 640, height := 480, imagesize := 614400, nbufs := 0, buffers := none } 3).2.2 ∧
     AllocEvent.write_length 2 4096 ∈ (video_alloc_buffers
      { reqbufs_ret := 0, reqbufs_count := 2, malloc_ok := true,
        querybuf_ret := fun _ => 0, querybuf_length := fun _ => 4096,
        querybuf_offset := fun i => 4096 * i, mmap_result := fun i => some (65536 + 4096 * i),
        qbuf_ret := fun _ => 0 }
      { width := 640, height := 480, imagesize := 614400, nbufs := 0, buffers := none } 3).2.2 ∧
     AllocEvent.write_start 2 (some 73728) ∈ (video_alloc_buffers
      { reqbufs_ret := 0, reqbufs_count := 2, malloc_ok := true,
        querybuf_ret := fun _ => 0, querybuf_length := fun _ => 4096,
        querybuf_offset := fun i => 4096 * i, mmap_result := fun i => some (65536 + 4096 * i),
        qbuf_ret := fun _ => 0 }
      { width := 640, height := 480, imagesize := 614400, nbufs := 0, buffers := none } 3).2.2) := by
  refine ⟨by decide, by decide, by decide, by decide, by decide⟩

/-! ## C6: the gamma table -/

theorem saturate_uchar_mono {a b : Int} (h : a ≤ b) : saturate_uchar a ≤ saturate_uchar b := by
  unfold saturate_uchar
  split_ifs <;> simp only [Fin.le_def] <;> omega

theorem saturate_uchar_natCast (i : Nat) (h : i ≤ 255) : (saturate_uchar (i : Int)).val = i := by
  have h1 : ¬ ((i : Int) < 0) := by omega
  have h2 : ¬ (255 < (i : Int)) := by omega
  unfold saturate_uchar
  rw [dif_neg h1, dif_neg h2]
  simp

theorem float_of_bits_one : float_of_bits 1065353216 = 1 := by
  norm_num [float_of_bits, zpow_neg]

/-- The base `i / 255.0` handed to `pow` lies between 0 and 1 for `i ≤ 255`. -/
theorem gamma_base_range (i : Nat) (h : i ≤ 255) :
    0 ≤ to_double ((i : ℚ) / 255) ∧ to_double ((i : ℚ) / 255) ≤ 1 := by
  have hi : ((i : ℚ)) ≤ 255 := by exact_mod_cast h
  have h0 : (0 : ℚ) ≤ (i : ℚ) / 255 := div_nonneg (Nat.cast_nonneg i) (by norm_num)
  have h1 : (i : ℚ) / 255 ≤ 1 := by
    rw [div_le_one (by norm_num)]; exact hi
  refine ⟨to_double_nonneg h0, ?_⟩
  have := to_double_mono h1
  rwa [to_double_of_nat 1 1 (by norm_num) (by norm_num), Nat.cast_one] at this

/-- With a `pow` that does not decrease in its base on `[0, 1]`, the table does not
decrease. -/
theorem look_up_table_mono (cv : OpenCV) (gamma_val : Nat)
    (hpow : ∀ x y : ℚ, 0 ≤ x → x ≤ y → y ≤ 1 →
      cv.pow x (float_of_bits gamma_val) ≤ cv.pow y (float_of_bits gamma_val))
    (i j : Nat) (hij : i ≤ j) (hj : j ≤ 255) :
    look_up_table cv gamma_val i ≤ look_up_table cv gamma_val j := by
  have hq : (i : ℚ) / 255 ≤ (j : ℚ) / 255 :=
    div_le_div_of_nonneg_right (by exact_mod_cast hij) (by norm_num)
  have hx := to_double_mono hq
  have hp := hpow _ _ (gamma_base_range i (by omega)).1 hx (gamma_base_range j hj).2
  have hm : cv.pow (to_double ((i : ℚ) / 255)) (float_of_bits gamma_val) * 255
      ≤ cv.pow (to_double ((j : ℚ) / 255)) (float_of_bits gamma_val) * 255 :=
    mul_le_mul_of_nonneg_right hp (by norm_num)
  unfold look_up_table
  exact saturate_uchar_mono (cvRound_mono (to_double_mono hm))

/-- With a `pow` that returns its base for the exponent 1, entry `i` of the table built for
`gamma_val = 1.0f` is `i`: the two roundings to `double` move `i` by less than a half. -/
theorem look_up_table_one (cv : OpenCV)
    (hone : ∀ x : ℚ, 0 ≤ x → x ≤ 1 → cv.pow x 1 = x) (i : Nat) (hi : i ≤ 255) :
    (look_up_table cv 1065353216 i).val = i := by
  obtain ⟨hb0, hb1⟩ := gamma_base_range i hi
  unfold look_up_table
  rw [float_of_bits_one, hone _ hb0 hb1]
  rcases Nat.eq_zero_or_pos i with hz | hpos
  · subst hz
    simp [to_double_zero]
    rfl
  · have hi1 : (1 : ℚ) ≤ (i : ℚ) := by exact_mod_cast hpos
    have hi255 : (i : ℚ) ≤ 255 := by exact_mod_cast hi
    have ha := to_double_rel (x := (i : ℚ) / 255) (by
      rw [le_div_iff₀ (by norm_num)]; linarith)
    have hb := to_double_rel (x := to_double ((i : ℚ) / 255) * 255) (by linarith [ha.1])
    have hdiv : (i : ℚ) / 255 * 255 = (i : ℚ) := by field_simp
    have hclose : |to_double (to_double ((i : ℚ) / 255) * 255) - ((i : Int) : ℚ)| < 1 / 2 := by
      rw [abs_lt]
      push_cast
      constructor <;> linarith [ha.1, ha.2, hb.1, hb.2]
    rw [cvRound_eq_of_close _ (i : Int) hclose]
    exact saturate_uchar_natCast i hi

/-- C6: let `pow` be a function that, for every exponent `γ > 0`, does not decrease in its
base on `[0, 1]`, and that returns its base for the exponent 1 (both hold of the power
function and are what the C library's `pow` does).  Then for every stored `gamma_val` with
value `γ > 0` the 256-entry table built by `apply_gamma_correction`, entry
`i = saturate_cast<uchar>(pow(i / 255.0, γ) * 255.0)` computed in `double`, is monotonically
non-decreasing in `i`; and for the default `gamma_val = 1.0f` entry `i` is `i` for every
`i` in 0..255, so `apply_gamma_correction` leaves every sample unchanged. -/
theorem gamma_table_monotone_identity (cv : OpenCV)
    (hmono : ∀ γ x y : ℚ, 0 < γ → 0 ≤ x → x ≤ y → y ≤ 1 → cv.pow x γ ≤ cv.pow y γ)
    (hone : ∀ x : ℚ, 0 ≤ x → x ≤ 1 → cv.pow x 1 = x) :
    (∀ gamma_val i j, 0 < float_of_bits gamma_val → i ≤ j → j ≤ 255 →
      look_up_table cv gamma_val i ≤ look_up_table cv gamma_val j) ∧
    float_of_bits 1065353216 = 1 ∧
    (∀ i, i ≤ 255 → (look_up_table cv 1065353216 i).val = i) ∧
    (∀ img : Image, apply_gamma_correction cv 1065353216 img = img) := by
  refine ⟨?_, float_of_bits_one, look_up_table_one cv hone, ?_⟩
  · intro gamma_val i j hγ hij hj
    exact look_up_table_mono cv gamma_val (fun x y hx hxy hy => hmono _ x y hγ hx hxy hy)
      i j hij hj
  · intro img
    unfold apply_gamma_correction
    dsimp only
    conv_rhs => rw [← List.map_id img]
    apply List.map_congr_left
    intro px _
    have hv : ∀ v : UChar, look_up_table cv 1065353216 v.val = v := by
      intro v
      apply Fin.ext
      exact look_up_table_one cv hone v.val (by have := v.isLt; omega)
    simp only [hv, id]

/-- Witness of `gamma_table_monotone_identity`: with `pow (x, γ)` equal to `x` for `γ = 1`
and to `x * x` otherwise, the table for `gamma_val = 2.0f` does not decrease from entry 100
to entry 200. -/
theorem gamma_table_monotone_identity_witness :
    look_up_table
      { cvtColor_bayer := fun _ _ _ _ => [], cvtColor_yuy2 := fun _ _ _ => [],
        pow := fun x γ => if γ = 1 then x else x * x, bgr2gray := fun px => px.g }
      1073741824 100
    ≤ look_up_table
      { cvtColor_bayer := fun _ _ _ _ => [], cvtColor_yuy2 := fun _ _ _ => [],
        pow := fun x γ => if γ = 1 then x else x * x, bgr2gray := fun px => px.g }
      1073741824 200 :=
  (gamma_table_monotone_identity
      { cvtColor_bayer := fun _ _ _ _ => [], cvtColor_yuy2 := fun _ _ _ => [],
        pow := fun x γ => if γ = 1 then x else x * x, bgr2gray := fun px => px.g }
      (fun γ x y _ hx hxy _ => by
        show (if γ = 1 then x else x * x) ≤ (if γ = 1 then y else y * y)
        split_ifs
        · exact hxy
        · exact mul_le_mul hxy hxy hx (le_trans hx hxy))
      (fun x _ _ => by simp)).1 1073741824 100 200
    (by norm_num [float_of_bits]) (by norm_num) (by norm_num)

end CameraTool
